import Mathlib

/-!
Shallow embedding of the `bitread` Go package (a bit-level reader over a
byte stream) and proofs about it.

Modelling conventions:
* Go `[]byte` values are `List Nat` whose elements are below 256 (carried as
  an invariant where needed).
* The Go `int` counters `offset`, `bitsInBuffer`, `lazyPosition` are `Nat`:
  in the source they are never negative at any point we model (the one
  transiently negative expression, `bitsInBuffer` inside `OpenWithBuffer`
  and the sled adjustments, is translated by the equivalent branch on the
  unsubtracted value); intermediate signed quantities (`delta` in
  `EndChunk`, `bufferBits` in `Skip`) are computed in `Int` exactly as in
  the source.
* Go panics become `Except.error` values with a distinct tag per panic
  site; out-of-bounds slice indexing errors with `RdErr.outOfBounds`.
* The underlying `io.Reader` is a `bytes.Reader`-style source: a byte list
  plus a read position; `Read` returns up to `k` bytes and reports `io.EOF`
  exactly when the position is at or past the end (Go `bytes.Reader`
  semantics).  Optional seeking (`io.Seeker`) and closing (`io.ReadCloser`)
  are capability flags.
* The unbounded refill loop inside `advance` is modelled with fuel; the
  fuel chosen at the call site (`offset + bits + 2`) is provably sufficient
  whenever the loop terminates in Go.
-/

namespace Bitread

/-- Little-endian interpretation of a byte list as a natural number. -/
def leNat : List Nat → Nat
  | [] => 0
  | b :: t => b % 256 + 256 * leNat t

/-- Reinterpret an `n`-bit unsigned value as a two's-complement signed value. -/
def toSigned (n v : Nat) : Int :=
  if v < 2 ^ (n - 1) then (v : Int) else (v : Int) - 2 ^ n

/-- Reinterpret a value below `2^64` as a signed 64-bit integer (Go `int64(u)`). -/
def toInt64 (v : Nat) : Int :=
  if v < 2 ^ 63 then (v : Int) else (v : Int) - 2 ^ 64

/-- Overwrite the bytes of `buf` starting at `start` with `xs`
(models Go `copy` into the slice `buf[start:start+len(xs)]`; all call sites
ensure the segment fits inside the buffer). -/
def setSeg (buf : List Nat) (start : Nat) (xs : List Nat) : List Nat :=
  buf.take start ++ xs ++ buf.drop (start + xs.length)

/-- Error/panic outcomes of the reader's operations. -/
inductive RdErr where
  /-- `EndChunk`: "Someone read beyond a chunk boundary". -/
  | chunkOverrun
  /-- `EndChunk`: "Skipping data failed, expected position %d got %d". -/
  | skipMismatch
  /-- `refillBuffer`: `panic(io.ErrUnexpectedEOF)` — read beyond end of source. -/
  | unexpectedEnd
  /-- `Skip`/`OpenWithBuffer`: `panic(err)` where the source's `Read` returned `io.EOF`. -/
  | eofPanic
  /-- A seek failed (`bytes.Reader`: negative position). -/
  | ioError
  /-- `stack.pop`/`stack.top` on an empty stack (Go index-out-of-range panic). -/
  | emptyStack
  /-- Out-of-bounds buffer slicing/indexing (Go runtime panic). -/
  | outOfBounds
  /-- `OpenWithBuffer` buffer-size validation panics. -/
  | configError
  /-- Negative shift count (unreachable for the widths the API documents). -/
  | badShift
  /-- Artificial fuel exhaustion of the modelled refill loop. -/
  | fuel
deriving Repr, DecidableEq

/-- A `bytes.Reader`-style byte source with optional seek/close capabilities. -/
structure Source where
  data : List Nat
  rpos : Nat
  seekable : Bool
  closable : Bool
deriving Repr, DecidableEq

/-- `Read` into a length-`k` destination: returns the bytes read, an
`io.EOF` flag, and the advanced source.  Go `bytes.Reader.Read` returns
`(0, io.EOF)` iff the position is at or past the end; otherwise it returns
`min k remaining` bytes with a `nil` error. -/
def Source.readInto (s : Source) (k : Nat) : List Nat × Bool × Source :=
  if s.data.length ≤ s.rpos then ([], true, s)
  else
    let got := min k (s.data.length - s.rpos)
    ((s.data.drop s.rpos).take got, false, { s with rpos := s.rpos + got })

/-- The zero value of a detached source (`r.underlying = nil`). -/
def emptySource : Source := { data := [], rpos := 0, seekable := false, closable := false }

/-- The `BitReader` struct of the source. -/
structure BitReader where
  src : Source
  buffer : List Nat
  offset : Nat
  bitsInBuffer : Nat
  lazyPosition : Nat
  chunkTargets : List Nat
  endReached : Bool
deriving Repr, DecidableEq

/-- `LazyPosition()`: offset at the time of the last buffer refill. -/
def lazyPos (r : BitReader) : Nat := r.lazyPosition

/-- `ActualPosition()`: the offset from the start in bits. -/
def actualPosition (r : BitReader) : Nat := r.lazyPosition + r.offset

/-- Bounds-checked byte access `buf[i]` (Go panics out of range). -/
def getByte (buf : List Nat) (i : Nat) : Except RdErr Nat :=
  if i < buf.length then .ok (buf.getD i 0) else .error .outOfBounds

/-- `binary.LittleEndian.Uint64(buf[i:])`: the 8 bytes at `i` as a
little-endian word (Go panics when fewer than 8 bytes remain). -/
def leWord (buf : List Nat) (i : Nat) : Except RdErr Nat :=
  if i + 8 ≤ buf.length then .ok (leNat ((buf.drop i).take 8)) else .error .outOfBounds

/-- `refillBuffer`: slide the sled to the front, account the consumed bits
into `lazyPosition`, and read fresh bytes after the sled.  `sled = 8`,
`sledBits = 64`. -/
def refillBuffer (r : BitReader) : Except RdErr BitReader :=
  -- copy(r.buffer[0:sled], r.buffer[r.bitsInBuffer>>3 : r.bitsInBuffer>>3+sled])
  if r.bitsInBuffer / 8 + 8 ≤ r.buffer.length then
    let buf1 := setSeg r.buffer 0 ((r.buffer.drop (r.bitsInBuffer / 8)).take 8)
    -- r.offset -= r.bitsInBuffer ; r.lazyPosition += r.bitsInBuffer
    let off1 := r.offset - r.bitsInBuffer
    let lazy1 := r.lazyPosition + r.bitsInBuffer
    -- newBytes, err := r.underlying.Read(r.buffer[sled:])
    let rd := r.src.readInto (r.buffer.length - 8)
    let fresh := rd.1
    let isEof := rd.2.1
    let src1 := rd.2.2
    let buf2 := setSeg buf1 8 fresh
    if isEof then
      if r.endReached then .error .unexpectedEnd
      else
        .ok { r with buffer := buf2, offset := off1, lazyPosition := lazy1,
                     src := src1, bitsInBuffer := fresh.length * 8 + 64, endReached := true }
    else
      .ok { r with buffer := buf2, offset := off1, lazyPosition := lazy1,
                   src := src1, bitsInBuffer := fresh.length * 8 }
  else .error .outOfBounds

/-- The refill loop of `advance` (`for r.offset > r.bitsInBuffer`), with fuel. -/
def advanceLoop : Nat → BitReader → Except RdErr BitReader
  | 0, _ => .error .fuel
  | f + 1, r =>
    if r.bitsInBuffer < r.offset then
      match refillBuffer r with
      | .error e => .error e
      | .ok r1 => advanceLoop f r1
    else .ok r

/-- `advance(bits)`: add to `offset` and refill while past `bitsInBuffer`.
The fuel `r.offset + bits + 2` suffices for every terminating Go run. -/
def advance (bits : Nat) (r : BitReader) : Except RdErr BitReader :=
  advanceLoop (r.offset + bits + 2) { r with offset := r.offset + bits }

/-- `ReadBit`: test bit `offset&7` of byte `offset>>3`, then advance 1. -/
def readBit (r : BitReader) : Except RdErr (Bool × BitReader) :=
  match getByte r.buffer (r.offset / 8) with
  | .error e => .error e
  | .ok b =>
    let res : Bool := b &&& (1 <<< (r.offset % 8)) != 0
    (advance 1 r).map fun r1 => (res, r1)

/-- `ReadInt(n)`: unconditional 8-byte little-endian load at the containing
byte, shift by the sub-byte offset, mask to `n` bits; single refill check. -/
def readInt (n : Nat) (r : BitReader) : Except RdErr (Nat × BitReader) :=
  match leWord r.buffer (r.offset / 8) with
  | .error e => .error e
  | .ok val =>
    let res := (val >>> (r.offset % 8)) &&& (2 ^ n - 1)
    let off1 := r.offset + n
    if r.bitsInBuffer < off1 then
      (refillBuffer { r with offset := off1 }).map fun r1 => (res, r1)
    else .ok (res, { r with offset := off1 })

/-- `ReadBitsToByte(n)`: `byte(ReadInt(n))`. -/
def readBitsToByte (n : Nat) (r : BitReader) : Except RdErr (Nat × BitReader) :=
  (readInt n r).map fun p => (p.1 % 256, p.2)

/-- `readByteInternal(bitLevel)`. -/
def readByteInternal (bitLevel : Bool) (r : BitReader) : Except RdErr (Nat × BitReader) :=
  if !bitLevel then
    match getByte r.buffer (r.offset / 8) with
    | .error e => .error e
    | .ok b => (advance 8 r).map fun r1 => (b, r1)
  else readBitsToByte 8 r

/-- `ReadSingleByte`. -/
def readSingleByte (r : BitReader) : Except RdErr (Nat × BitReader) :=
  readByteInternal (r.offset % 8 != 0) r

/-- `ReadSignedInt(n)`: 8-byte load at the word-aligned byte index
`offset>>3 &^ 3`, shift the used bits to the top of an `int64`, arithmetic
right shift by `64-n`.  A negative Go shift count (possible only outside
the documented `n ≤ 32`) is a panic, tagged `badShift`. -/
def readSignedInt (n : Nat) (r : BitReader) : Except RdErr (Int × BitReader) :=
  match leWord r.buffer (r.offset / 8 / 4 * 4) with
  | .error e => .error e
  | .ok val =>
    if r.offset % 32 + n ≤ 64 ∧ n ≤ 64 then
      let shifted := (val <<< (64 - r.offset % 32 - n)) % 2 ^ 64
      let res := toInt64 shifted / 2 ^ (64 - n)
      (advance n r).map fun r1 => (res, r1)
    else .error .badShift

/-- One iteration count of the byte loops in `ReadBits`/`ReadBytesInto`. -/
def readBytesLoop (bitLevel : Bool) : Nat → BitReader → Except RdErr (List Nat × BitReader)
  | 0, r => .ok ([], r)
  | k + 1, r =>
    match readByteInternal bitLevel r with
    | .error e => .error e
    | .ok (b, r1) =>
      match readBytesLoop bitLevel k r1 with
      | .error e => .error e
      | .ok (bs, r2) => .ok (b :: bs, r2)

/-- `ReadBits(n)`: `n>>3` whole bytes then the remaining `n&7` bits. -/
def readBits (n : Nat) (r : BitReader) : Except RdErr (List Nat × BitReader) :=
  let bitLevel : Bool := r.offset % 8 != 0
  match readBytesLoop bitLevel (n / 8) r with
  | .error e => .error e
  | .ok (bs, r1) =>
    if n % 8 != 0 then
      (readBitsToByte (n % 8) r1).map fun p => (bs ++ [p.1], p.2)
    else .ok (bs, r1)

/-- `ReadBytes(n)`/`ReadBytesInto`: contiguous-copy fast path when
byte-aligned and fully buffered, else the byte-by-byte loop. -/
def readBytesN (n : Nat) (r : BitReader) : Except RdErr (List Nat × BitReader) :=
  let bitLevel : Bool := r.offset % 8 != 0
  if !bitLevel && decide (r.offset + n * 8 ≤ r.bitsInBuffer) then
    -- *out = append(*out, r.buffer[r.offset>>3 : r.offset>>3+n]...)
    if r.offset / 8 + n ≤ r.buffer.length then
      (advance (n * 8) r).map fun r1 => ((r.buffer.drop (r.offset / 8)).take n, r1)
    else .error .outOfBounds
  else readBytesLoop bitLevel n r

/-- `ReadCString(n)`: `n` bytes, truncated at the first zero byte. -/
def readCString (n : Nat) (r : BitReader) : Except RdErr (List Nat × BitReader) :=
  (readBytesN n r).map fun p => (p.1.takeWhile (fun b => b != 0), p.2)

/-- `BeginChunk(n)`: push `ActualPosition() + n` (Go `append`, top at the end). -/
def beginChunk (n : Nat) (r : BitReader) : BitReader :=
  { r with chunkTargets := r.chunkTargets ++ [actualPosition r + n] }

/-- `Skip(n)`: seek past the unbuffered region when the skip is large and
the source seeks; otherwise bit-by-bit advance. -/
def skip (n : Nat) (r : BitReader) : Except RdErr BitReader :=
  let bufferBits : Int := (r.bitsInBuffer : Int) - (r.offset : Int)
  if bufferBits + 64 < (n : Int) ∧ r.src.seekable then
    let u : Int := (n : Int) - bufferBits
    -- globalOffset, err := seeker.Seek(int64((u>>3)-sled), io.SeekCurrent)
    let newPos : Int := (r.src.rpos : Int) + (u / 8 - 8)
    if newPos < 0 then .error .ioError
    else
      -- newBytes, err := r.underlying.Read(r.buffer)
      let rd := Source.readInto { r.src with rpos := newPos.toNat } r.buffer.length
      if rd.2.1 then .error .eofPanic
      else
        let nb := rd.1.length
        .ok { r with src := rd.2.2,
                     buffer := setSeg r.buffer 0 rd.1,
                     lazyPosition := newPos.toNat * 8,
                     offset := (u % 8).toNat,
                     bitsInBuffer := if nb ≤ 8 then nb * 8 else nb * 8 - 64 }
  else advance n r

/-- `EndChunk`: pop the target, fail on overrun, skip any remainder, and
assert the final position. -/
def endChunk (r : BitReader) : Except RdErr BitReader :=
  match r.chunkTargets.getLast? with
  | none => .error .emptyStack
  | some target =>
    let r1 := { r with chunkTargets := r.chunkTargets.dropLast }
    let delta : Int := (target : Int) - (actualPosition r1 : Int)
    if delta < 0 then .error .chunkOverrun
    else
      match (if 0 < delta then skip delta.toNat r1 else .ok r1) with
      | .error e => .error e
      | .ok r2 =>
        if target = actualPosition r2 then .ok r2 else .error .skipMismatch

/-- `ChunkFinished`: `top ≤ ActualPosition()` (panics on an empty stack). -/
def chunkFinished (r : BitReader) : Except RdErr Bool :=
  match r.chunkTargets.getLast? with
  | none => .error .emptyStack
  | some target => .ok (decide (target ≤ actualPosition r))

/-- `OpenWithBuffer`: validate the buffer, attach source and buffer, and do
the initial fill.  Buffer-size violations and a failing initial read are Go
panics.  Only the fields the source assigns are touched. -/
def openWithBuffer (src : Source) (buffer : List Nat) (r : BitReader) : Except RdErr BitReader :=
  if buffer.length % 8 != 0 then .error .configError
  else if buffer.length ≤ 16 then .error .configError
  else
    let rd := src.readInto buffer.length
    if rd.2.1 then .error .eofPanic
    else
      let nb := rd.1.length
      -- r.bitsInBuffer = (bytes << 3) - sledBits ; if < 0 { += sledBits }
      .ok { r with endReached := false, src := rd.2.2,
                   buffer := setSeg buffer 0 rd.1,
                   bitsInBuffer := if nb * 8 < 64 then nb * 8 else nb * 8 - 64 }

/-- `Open(underlying, bufferSize)`: `OpenWithBuffer` on a fresh zero buffer. -/
def openSized (src : Source) (bufferSize : Nat) (r : BitReader) : Except RdErr BitReader :=
  openWithBuffer src (List.replicate bufferSize 0) r

/-- `Close`: when the source is an `io.ReadCloser` the function returns the
source's `Close` result immediately and resets nothing; otherwise it
detaches the source and zeroes every counter. -/
def close (r : BitReader) : BitReader :=
  if r.src.closable then r
  else { r with src := emptySource, buffer := [], offset := 0, bitsInBuffer := 0,
                chunkTargets := [], lazyPosition := 0 }

/-- The zero value of a `BitReader` (`new(bitread.BitReader)`). -/
def mkReader : BitReader :=
  { src := emptySource, buffer := [], offset := 0, bitsInBuffer := 0,
    lazyPosition := 0, chunkTargets := [], endReached := false }

/-- A fresh reader opened on `data` with an `Open`-style zeroed buffer. -/
def mkOpen (data : List Nat) (bufferSize : Nat) (seekable closable : Bool) :
    Except RdErr BitReader :=
  openSized { data := data, rpos := 0, seekable := seekable, closable := closable }
    bufferSize mkReader

/-! ## Operation language over an open reader -/

/-- The decode/skip/chunk operations of the public API. -/
inductive Op where
  | readBit
  | readInt (n : Nat)
  | readSignedInt (n : Nat)
  | readBitsToByte (n : Nat)
  | readSingleByte
  | readBits (n : Nat)
  | readBytes (n : Nat)
  | readCString (n : Nat)
  | skip (n : Nat)
  | beginChunk (n : Nat)
  | endChunk
  | chunkFinished
deriving Repr, DecidableEq

/-- Results returned by operations. -/
inductive Val where
  | b (x : Bool)
  | n (x : Nat)
  | i (x : Int)
  | bs (x : List Nat)
  | u
deriving Repr, DecidableEq

/-- Run one operation on the reader. -/
def step (op : Op) (r : BitReader) : Except RdErr (Val × BitReader) :=
  match op with
  | .readBit => (readBit r).map fun p => (.b p.1, p.2)
  | .readInt n => (readInt n r).map fun p => (.n p.1, p.2)
  | .readSignedInt n => (readSignedInt n r).map fun p => (.i p.1, p.2)
  | .readBitsToByte n => (readBitsToByte n r).map fun p => (.n p.1, p.2)
  | .readSingleByte => (readSingleByte r).map fun p => (.n p.1, p.2)
  | .readBits n => (readBits n r).map fun p => (.bs p.1, p.2)
  | .readBytes n => (readBytesN n r).map fun p => (.bs p.1, p.2)
  | .readCString n => (readCString n r).map fun p => (.bs p.1, p.2)
  | .skip n => (skip n r).map fun r1 => (.u, r1)
  | .beginChunk n => .ok (.u, beginChunk n r)
  | .endChunk => (endChunk r).map fun r1 => (.u, r1)
  | .chunkFinished => (chunkFinished r).map fun x => (.b x, r)

/-- Run a list of operations, collecting the results. -/
def runOps : List Op → BitReader → Except RdErr (List Val × BitReader)
  | [], r => .ok ([], r)
  | op :: ops, r =>
    match step op r with
    | .error e => .error e
    | .ok (v, r1) =>
      match runOps ops r1 with
      | .error e => .error e
      | .ok (vs, r2) => .ok (v :: vs, r2)

/-! ## Reference (specification-side) semantics

The reference semantics reads the source byte list directly: bit `i` of the
stream is bit `i % 8` of byte `i / 8` (least-significant-bit first), an
`n`-bit read at position `p` is bits `[p, p+n)` assembled LSB-first, and
positions/chunk targets are absolute bit offsets.  These definitions follow
the specification's words, independently of the buffering engine. -/

/-- Reference `n`-bit unsigned read at bit position `p` of the stream. -/
def refReadInt (data : List Nat) (p n : Nat) : Nat :=
  (leNat data >>> p) % 2 ^ n

/-- Reference single-bit read. -/
def refReadBit (data : List Nat) (p : Nat) : Bool :=
  Nat.testBit (leNat data) p

/-- Reference byte-sequence read: `count` successive 8-bit reads. -/
def refBytes (data : List Nat) (p count : Nat) : List Nat :=
  (List.range count).map fun i => refReadInt data (p + 8 * i) 8

/-- Reference `ReadBits(n)`: whole bytes then the trailing `n % 8` bits. -/
def refBits (data : List Nat) (p n : Nat) : List Nat :=
  refBytes data p (n / 8) ++
    (if n % 8 ≠ 0 then [refReadInt data (p + 8 * (n / 8)) (n % 8)] else [])

/-- Reference state: absolute bit position and the open chunk targets. -/
structure RefSt where
  pos : Nat
  chunks : List Nat
deriving Repr, DecidableEq

/-- Reference step.  `none` encodes a precondition violation: a width
outside the documented limits, a read past the bits the source can supply,
a skip that does not land strictly inside the source, or a chunk operation
on an empty stack. -/
def refStep (data : List Nat) (op : Op) (s : RefSt) : Option (Val × RefSt) :=
  let L := data.length
  match op with
  | .readBit =>
    if s.pos + 1 ≤ 8 * L then some (.b (refReadBit data s.pos), ⟨s.pos + 1, s.chunks⟩)
    else none
  | .readInt n =>
    if n ≤ 32 ∧ s.pos + n ≤ 8 * L then
      some (.n (refReadInt data s.pos n), ⟨s.pos + n, s.chunks⟩)
    else none
  | .readSignedInt n =>
    if 1 ≤ n ∧ n ≤ 32 ∧ s.pos + n ≤ 8 * L then
      some (.i (toSigned n (refReadInt data s.pos n)), ⟨s.pos + n, s.chunks⟩)
    else none
  | .readBitsToByte n =>
    if n ≤ 8 ∧ s.pos + n ≤ 8 * L then
      some (.n (refReadInt data s.pos n), ⟨s.pos + n, s.chunks⟩)
    else none
  | .readSingleByte =>
    if s.pos + 8 ≤ 8 * L then
      some (.n (refReadInt data s.pos 8), ⟨s.pos + 8, s.chunks⟩)
    else none
  | .readBits n =>
    if s.pos + n ≤ 8 * L then some (.bs (refBits data s.pos n), ⟨s.pos + n, s.chunks⟩)
    else none
  | .readBytes n =>
    if s.pos + 8 * n ≤ 8 * L then
      some (.bs (refBytes data s.pos n), ⟨s.pos + 8 * n, s.chunks⟩)
    else none
  | .readCString n =>
    if s.pos + 8 * n ≤ 8 * L then
      some (.bs ((refBytes data s.pos n).takeWhile (fun b => b != 0)), ⟨s.pos + 8 * n, s.chunks⟩)
    else none
  | .skip n =>
    if s.pos + n < 8 * L then some (.u, ⟨s.pos + n, s.chunks⟩) else none
  | .beginChunk n => some (.u, ⟨s.pos, s.chunks ++ [s.pos + n]⟩)
  | .endChunk =>
    match s.chunks.getLast? with
    | none => none
    | some t =>
      if s.pos ≤ t ∧ (s.pos = t ∨ t < 8 * L) then some (.u, ⟨t, s.chunks.dropLast⟩)
      else none
  | .chunkFinished =>
    match s.chunks.getLast? with
    | none => none
    | some t => some (.b (decide (t ≤ s.pos)), s)

/-- Run a list of operations in the reference semantics. -/
def refRun (data : List Nat) : List Op → RefSt → Option (List Val × RefSt)
  | [], s => some ([], s)
  | op :: ops, s =>
    match refStep data op s with
    | none => none
    | some (v, s1) =>
      match refRun data ops s1 with
      | none => none
      | some (vs, s2) => some (v :: vs, s2)

/-! ## The well-formedness invariant -/

/-- Structural invariant tying the reader's buffer, counters and source
together (everything except the offset bounds): buffer geometry, byte
ranges, 8-divisibility of the counters, the source-position
synchronisation, and the window property (every buffer byte inside the
valid window mirrors the corresponding source byte). -/
def WFn (r : BitReader) : Prop :=
  (r.buffer.length % 8 = 0 ∧ 24 ≤ r.buffer.length) ∧
  ((∀ b ∈ r.buffer, b < 256) ∧ (∀ b ∈ r.src.data, b < 256)) ∧
  (r.lazyPosition % 8 = 0 ∧ r.bitsInBuffer % 8 = 0 ∧
    r.bitsInBuffer + 64 ≤ 8 * r.buffer.length) ∧
  ((r.endReached = false ∧ 8 * r.src.rpos = r.lazyPosition + r.bitsInBuffer + 64 ∧
      r.src.rpos ≤ r.src.data.length) ∨
    (r.src.rpos = r.src.data.length ∧
      8 * r.src.data.length ≤ r.lazyPosition + r.bitsInBuffer)) ∧
  (∀ i, i < r.buffer.length → 8 * i < r.bitsInBuffer + 64 →
    r.lazyPosition / 8 + i < r.src.data.length →
    r.buffer.getD i 0 = r.src.data.getD (r.lazyPosition / 8 + i) 0)

/-- Full well-formedness: the structural invariant plus the offset bounds
that hold between operations. -/
def WF (r : BitReader) : Prop :=
  WFn r ∧
  (r.offset ≤ r.bitsInBuffer ∨
    (r.offset ≤ 64 ∧ 8 * r.src.data.length ≤ r.lazyPosition + r.bitsInBuffer + 64)) ∧
  (r.endReached = true → r.offset ≤ r.bitsInBuffer)

instance (r : BitReader) : Decidable (WFn r) := by
  unfold WFn
  infer_instance

instance (r : BitReader) : Decidable (WF r) := by
  unfold WF
  infer_instance

/-- Fields no operation changes and the buffer length, preserved by reads. -/
def Stable (r r' : BitReader) : Prop :=
  r'.src.data = r.src.data ∧ r'.src.seekable = r.src.seekable ∧
  r'.src.closable = r.src.closable ∧ r'.buffer.length = r.buffer.length ∧
  r'.chunkTargets = r.chunkTargets

/-- Simulation: the reader is well-formed, reads `data`, and its position
and chunk stack agree with the reference state. -/
def Sim (data : List Nat) (r : BitReader) (s : RefSt) : Prop :=
  WF r ∧ r.src.data = data ∧ actualPosition r = s.pos ∧ r.chunkTargets = s.chunks

/-- The operations that consume stream bits and return data. -/
def Op.isRead : Op → Bool
  | .readBit => true
  | .readInt _ => true
  | .readSignedInt _ => true
  | .readBitsToByte _ => true
  | .readSingleByte => true
  | .readBits _ => true
  | .readBytes _ => true
  | .readCString _ => true
  | _ => false

/-- The exact number of stream bits a read operation consumes. -/
def Op.width : Op → Nat
  | .readBit => 1
  | .readInt n => n
  | .readSignedInt n => n
  | .readBitsToByte n => n
  | .readSingleByte => 8
  | .readBits n => n
  | .readBytes n => 8 * n
  | .readCString n => 8 * n
  | _ => 0

/-! ## Concrete sample readers for witnesses

`openedReader` is exactly the result of `mkOpen (List.range 41) 24 true
false`: 41 source bytes `0..40`, a 24-byte buffer filled by the initial
read, `bitsInBuffer = 24*8 - 64 = 128`. -/
def openedReader : BitReader :=
  { src := { data := List.range 41, rpos := 24, seekable := true, closable := false },
    buffer := List.range 24, offset := 0, bitsInBuffer := 128,
    lazyPosition := 0, chunkTargets := [], endReached := false }

/-- A well-formed reader on the single byte `0xac` (tests `TestReadBit`'s
byte values), fresh from `mkOpen [172] 24 false false`. -/
def byteReader : BitReader :=
  { src := { data := [172], rpos := 1, seekable := false, closable := false },
    buffer := 172 :: List.replicate 23 0, offset := 0, bitsInBuffer := 8,
    lazyPosition := 0, chunkTargets := [], endReached := false }

/-- A well-formed reader whose source is an `io.ReadCloser`. -/
def closableReader : BitReader :=
  { src := { data := [172], rpos := 1, seekable := false, closable := true },
    buffer := 172 :: List.replicate 23 0, offset := 0, bitsInBuffer := 8,
    lazyPosition := 0, chunkTargets := [], endReached := false }

/-- A well-formed reader that has already observed source exhaustion
(`endReached`): one source byte, sled folded into `bitsInBuffer`. -/
def exhaustedReader : BitReader :=
  { src := { data := [5], rpos := 1, seekable := false, closable := false },
    buffer := 5 :: List.replicate 23 0, offset := 60, bitsInBuffer := 64,
    lazyPosition := 8, chunkTargets := [], endReached := true }

/-- `openedReader` about to need a refill: 130 bits consumed. -/
def drainedReader : BitReader :=
  { openedReader with offset := 130 }

/-- The result of a successful refill on `drainedReader`. -/
def refilledReader : BitReader :=
  { src := { data := List.range 41, rpos := 40, seekable := true, closable := false },
    buffer := List.range' 16 24, offset := 2, bitsInBuffer := 128,
    lazyPosition := 128, chunkTargets := [], endReached := false }

/-- `openedReader` with one open chunk whose target is bit 16. -/
def chunkReader : BitReader :=
  { openedReader with chunkTargets := [16] }

/-- The state reached by `Open([0x01], 24); ReadBit()`: one source byte
`0x01`, bit position 1. -/
def bitReader01 : BitReader :=
  { src := { data := [1], rpos := 1, seekable := false, closable := false },
    buffer := 1 :: List.replicate 23 0, offset := 1, bitsInBuffer := 8,
    lazyPosition := 0, chunkTargets := [], endReached := false }

/-- Exactly the result of `mkOpen (List.range 40) 24 true false`: a
seekable 40-byte source whose total bit supply is `320`. -/
def seekReader40 : BitReader :=
  { src := { data := List.range 40, rpos := 24, seekable := true, closable := false },
    buffer := List.range 24, offset := 0, bitsInBuffer := 128,
    lazyPosition := 0, chunkTargets := [], endReached := false }

/-! ## Byte/bit utility lemmas -/

theorem testBit_byte_add (a T k : Nat) (ha : a < 256) :
    Nat.testBit (a + 256 * T) k =
      if k < 8 then Nat.testBit a k else Nat.testBit T (k - 8) := by
  rcases Nat.lt_or_ge k 8 with hk | hk
  · rw [if_pos hk, Nat.testBit_to_div_mod, Nat.testBit_to_div_mod]
    have h256 : (256 : Nat) * T = 2 ^ k * (2 * (2 ^ (7 - k) * T)) := by
      have h7 : 2 * (2 : Nat) ^ (7 - k) = 2 ^ (8 - k) := by
        rw [← pow_succ']
        congr 1
        omega
      have h8 : (2 : Nat) ^ k * (2 * 2 ^ (7 - k)) = 256 := by
        rw [h7, ← pow_add]
        have he : k + (8 - k) = 8 := by omega
        rw [he]
        norm_num
      calc (256 : Nat) * T = 2 ^ k * (2 * 2 ^ (7 - k)) * T := by rw [h8]
      _ = 2 ^ k * (2 * (2 ^ (7 - k) * T)) := by ring
    rw [h256, Nat.add_mul_div_left _ _ (Nat.pos_pow_of_pos k (by norm_num)),
      Nat.add_mul_mod_self_left]
  · rw [if_neg (by omega), Nat.testBit_to_div_mod, Nat.testBit_to_div_mod]
    have h2k : (2 : Nat) ^ k = 256 * 2 ^ (k - 8) := by
      have h : (256 : Nat) = 2 ^ 8 := by norm_num
      rw [h, ← pow_add]
      congr 1
      omega
    rw [h2k, ← Nat.div_div_eq_div_mul, Nat.add_mul_div_left _ _ (by norm_num : (0:Nat) < 256),
      Nat.div_eq_of_lt ha, Nat.zero_add]

theorem leNat_testBit (l : List Nat) (k : Nat) :
    Nat.testBit (leNat l) k = Nat.testBit (l.getD (k / 8) 0 % 256) (k % 8) := by
  induction l generalizing k with
  | nil => simp [leNat, List.getD]
  | cons b t ih =>
    rw [leNat, testBit_byte_add _ _ _ (Nat.mod_lt b (by norm_num))]
    rcases Nat.lt_or_ge k 8 with hk | hk
    · rw [if_pos hk]
      have h1 : k / 8 = 0 := Nat.div_eq_of_lt hk
      have h2 : k % 8 = k := Nat.mod_eq_of_lt hk
      simp [h1, h2, List.getD]
    · rw [if_neg (by omega), ih (k - 8)]
      have h1 : (k - 8) / 8 = k / 8 - 1 := by omega
      have h2 : (k - 8) % 8 = k % 8 := by omega
      have h3 : 1 ≤ k / 8 := by omega
      rw [h1, h2]
      rcases Nat.exists_eq_add_of_le h3 with ⟨j, hj⟩
      have hj' : k / 8 = j + 1 := by omega
      have hj3 : j + 1 - 1 = j := by omega
      rw [hj', hj3, List.getD_cons_succ]

theorem leNat_lt (l : List Nat) : leNat l < 2 ^ (8 * l.length) := by
  induction l with
  | nil => simp [leNat]
  | cons b t ih =>
    rw [leNat, List.length_cons]
    have hb : b % 256 < 256 := Nat.mod_lt b (by norm_num)
    have h : 8 * (t.length + 1) = 8 * t.length + 8 := by ring
    rw [h, pow_add]
    have : (2 : Nat) ^ 8 = 256 := by norm_num
    calc b % 256 + 256 * leNat t < 256 + 256 * leNat t := by omega
    _ = 256 * (leNat t + 1) := by ring
    _ ≤ 256 * 2 ^ (8 * t.length) := by
        exact Nat.mul_le_mul_left 256 (by omega)
    _ = 2 ^ (8 * t.length) * 2 ^ 8 := by rw [this]; ring

theorem leNat_getD_mod (l : List Nat) : leNat l % 256 = l.getD 0 0 % 256 := by
  cases l with
  | nil => simp [leNat, List.getD]
  | cons b t =>
    rw [leNat]
    simp [List.getD, Nat.add_mul_mod_self_left]

theorem leNat_shiftRight_eight (b : Nat) (t : List Nat) :
    leNat (b :: t) >>> 8 = leNat t := by
  rw [leNat, Nat.shiftRight_eq_div_pow]
  have h : (2 : Nat) ^ 8 = 256 := by norm_num
  rw [h, Nat.add_mul_div_left _ _ (by norm_num : (0:Nat) < 256),
    Nat.div_eq_of_lt (Nat.mod_lt b (by norm_num)), Nat.zero_add]

theorem leNat_drop (l : List Nat) (k : Nat) : leNat l >>> (8 * k) = leNat (l.drop k) := by
  induction k generalizing l with
  | zero => simp
  | succ k ih =>
    cases l with
    | nil =>
      simp [leNat, Nat.shiftRight_eq_div_pow, Nat.zero_div]
    | cons b t =>
      have h : 8 * (k + 1) = 8 + 8 * k := by ring
      rw [h, Nat.shiftRight_add, leNat_shiftRight_eight, ih]
      simp

/-- The `mod 256` inside `leNat` is the identity on genuine byte lists. -/
theorem getD_lt_256 {l : List Nat} (h : ∀ b ∈ l, b < 256) (i : Nat) : l.getD i 0 < 256 := by
  rw [List.getD_eq_getElem?_getD]
  cases hx : l[i]? with
  | none => simp
  | some b =>
    have : b ∈ l := List.getElem?_mem hx
    simpa using h b this

theorem refReadInt_byte (data : List Nat) (k : Nat) (hd : ∀ b ∈ data, b < 256) :
    refReadInt data (8 * k) 8 = data.getD k 0 := by
  rw [refReadInt, leNat_drop]
  have h : (2 : Nat) ^ 8 = 256 := by norm_num
  rw [h, leNat_getD_mod]
  rcases Nat.lt_or_ge k data.length with hk | hk
  · have h0 : (data.drop k).getD 0 0 = data.getD k 0 := by
      rw [List.getD_eq_getElem?_getD, List.getD_eq_getElem?_getD, List.getElem?_drop,
        Nat.add_zero]
    rw [h0, Nat.mod_eq_of_lt (getD_lt_256 hd k)]
  · have h0 : data.drop k = [] := List.drop_eq_nil_of_le hk
    have h1 : data.getD k 0 = 0 := by
      rw [List.getD_eq_getElem?_getD, List.getElem?_eq_none (by omega)]
      rfl
    rw [h0, h1]
    rfl

theorem refReadInt_lt (data : List Nat) (p n : Nat) : refReadInt data p n < 2 ^ n :=
  Nat.mod_lt _ (Nat.pos_pow_of_pos n (by norm_num))

/-- Bit `j` of an `n`-bit reference read. -/
theorem refReadInt_testBit (data : List Nat) (p n j : Nat) :
    Nat.testBit (refReadInt data p n) j =
      (decide (j < n) && Nat.testBit (data.getD ((p + j) / 8) 0 % 256) ((p + j) % 8)) := by
  rw [refReadInt, Nat.testBit_mod_two_pow, Nat.testBit_shiftRight, leNat_testBit]

theorem refReadBit_getD (data : List Nat) (p : Nat) :
    refReadBit data p = Nat.testBit (data.getD (p / 8) 0 % 256) (p % 8) := by
  rw [refReadBit, leNat_testBit]

/-! ## `setSeg` access lemmas -/

theorem setSeg_length {buf xs : List Nat} {start : Nat}
    (h : start + xs.length ≤ buf.length) : (setSeg buf start xs).length = buf.length := by
  rw [setSeg]
  simp only [List.length_append, List.length_take, List.length_drop]
  omega

theorem setSeg_getD_mid {buf xs : List Nat} {start i : Nat}
    (h1 : start ≤ i) (h2 : i < start + xs.length) (h3 : start ≤ buf.length) :
    (setSeg buf start xs).getD i 0 = xs.getD (i - start) 0 := by
  have hlen : (List.take start buf ++ xs).length = start + xs.length := by
    rw [List.length_append, List.length_take]
    omega
  have hlen2 : (List.take start buf).length = start := by
    rw [List.length_take]
    omega
  rw [setSeg, List.getD_eq_getElem?_getD, List.getD_eq_getElem?_getD,
    List.getElem?_append, if_pos (by rw [hlen]; omega),
    List.getElem?_append, if_neg (by rw [hlen2]; omega), hlen2]

theorem setSeg_getD_lt {buf xs : List Nat} {start i : Nat}
    (h1 : i < start) (h3 : start ≤ buf.length) :
    (setSeg buf start xs).getD i 0 = buf.getD i 0 := by
  have hlen : (List.take start buf ++ xs).length = start + xs.length := by
    rw [List.length_append, List.length_take]
    omega
  have hlen2 : (List.take start buf).length = start := by
    rw [List.length_take]
    omega
  rw [setSeg, List.getD_eq_getElem?_getD, List.getD_eq_getElem?_getD,
    List.getElem?_append, if_pos (by rw [hlen]; omega),
    List.getElem?_append, if_pos (by rw [hlen2]; omega),
    List.getElem?_take, if_pos h1]

theorem setSeg_getD_ge {buf xs : List Nat} {start i : Nat}
    (h1 : start + xs.length ≤ i) (h3 : start ≤ buf.length) :
    (setSeg buf start xs).getD i 0 = buf.getD i 0 := by
  have hlen : (List.take start buf ++ xs).length = start + xs.length := by
    rw [List.length_append, List.length_take]
    omega
  rw [setSeg, List.getD_eq_getElem?_getD, List.getD_eq_getElem?_getD,
    List.getElem?_append, if_neg (by rw [hlen]; omega), hlen, List.getElem?_drop]
  congr 2
  omega

theorem setSeg_mem {buf xs : List Nat} {b : Nat} (h : b ∈ setSeg buf start xs) :
    b ∈ buf ∨ b ∈ xs := by
  rw [setSeg] at h
  rcases List.mem_append.mp h with h | h
  · rcases List.mem_append.mp h with h | h
    · exact Or.inl (List.mem_of_mem_take h)
    · exact Or.inr h
  · exact Or.inl (List.mem_of_mem_drop h)

theorem getD_drop_take (l : List Nat) (a j w : Nat) (hj : j < w) :
    ((l.drop a).take w).getD j 0 = l.getD (a + j) 0 := by
  rw [List.getD_eq_getElem?_getD, List.getD_eq_getElem?_getD, List.getElem?_take, if_pos hj,
    List.getElem?_drop]

/-! ## Arithmetic of the signed read -/

/-- The shift-up / arithmetic-shift-down sequence of `ReadSignedInt` computes
the two's-complement reinterpretation of the `n` bits starting at sub-word
offset `m`. -/
theorem sar_spec (val m n : Nat) (hval : val < 2 ^ 64) (h : m + n ≤ 64) (hn : 1 ≤ n) :
    toInt64 ((val <<< (64 - m - n)) % 2 ^ 64) / 2 ^ (64 - n) =
      toSigned n ((val >>> m) % 2 ^ n) := by
  set s := 64 - m - n with hs
  set x := val % 2 ^ (m + n) with hx
  have hxlt : x < 2 ^ (m + n) := Nat.mod_lt _ (Nat.pos_pow_of_pos _ (by norm_num))
  have h64 : (2 : Nat) ^ 64 = 2 ^ (m + n) * 2 ^ s := by
    rw [← pow_add]
    congr 1
    omega
  have hstep1 : (val <<< s) % 2 ^ 64 = x * 2 ^ s := by
    rw [Nat.shiftLeft_eq, h64, Nat.mul_mod_mul_right]
  have hmn : (2 : Nat) ^ (m + n) = 2 ^ m * 2 ^ n := pow_add 2 m n
  have hstep2 : (val >>> m) % 2 ^ n = x / 2 ^ m := by
    rw [Nat.shiftRight_eq_div_pow, hx, hmn, Nat.mod_mul_right_div_self]
  have h63 : (2 : Nat) ^ 63 = 2 ^ (m + n - 1) * 2 ^ s := by
    rw [← pow_add]
    congr 1
    omega
  have hcaseiff : x * 2 ^ s < 2 ^ 63 ↔ x / 2 ^ m < 2 ^ (n - 1) := by
    rw [h63]
    rw [Nat.mul_lt_mul_right (Nat.pos_pow_of_pos s (by norm_num))]
    rw [Nat.div_lt_iff_lt_mul (Nat.pos_pow_of_pos m (by norm_num))]
    have he : (2 : Nat) ^ (n - 1) * 2 ^ m = 2 ^ (m + n - 1) := by
      rw [← pow_add]
      congr 1
      omega
    rw [he]
  have h64n : (2 : Int) ^ (64 - n) = 2 ^ s * 2 ^ m := by
    rw [← pow_add]
    congr 1
    omega
  rw [hstep1, hstep2, toInt64, toSigned]
  rcases Nat.lt_or_ge (x * 2 ^ s) (2 ^ 63) with hlt | hge
  · rw [if_pos hlt, if_pos (hcaseiff.mp hlt)]
    have hnat : x * 2 ^ s / 2 ^ (64 - n) = x / 2 ^ m := by
      have he : (2 : Nat) ^ (64 - n) = 2 ^ s * 2 ^ m := by
        rw [← pow_add]
        congr 1
        omega
      rw [he, Nat.mul_comm x (2 ^ s), ← Nat.div_div_eq_div_mul, Nat.mul_div_cancel_left _
        (Nat.pos_pow_of_pos s (by norm_num))]
    calc ((x * 2 ^ s : Nat) : Int) / 2 ^ (64 - n)
        = ((x * 2 ^ s : Nat) : Int) / ((2 ^ (64 - n) : Nat) : Int) := by push_cast; ring_nf
      _ = ((x * 2 ^ s / 2 ^ (64 - n) : Nat) : Int) := (Int.ofNat_ediv _ _).symm
      _ = ((x / 2 ^ m : Nat) : Int) := by rw [hnat]
  · rw [if_neg (by omega), if_neg (by
      intro hc
      exact absurd (hcaseiff.mpr hc) (by omega))]
    have hfact : ((x * 2 ^ s : Nat) : Int) - 2 ^ 64 =
        2 ^ s * ((x : Int) + (-(2 ^ n)) * 2 ^ m) := by
      have h64i : (2 : Int) ^ 64 = 2 ^ (m + n) * 2 ^ s := by
        rw [← pow_add]
        congr 1
        omega
      have hcast : ((x * 2 ^ s : Nat) : Int) = (x : Int) * 2 ^ s := by
        push_cast
        ring
      have hmni : (2 : Int) ^ (m + n) = 2 ^ m * 2 ^ n := pow_add 2 m n
      rw [hcast, h64i, hmni]
      ring
    rw [hfact, h64n, Int.mul_ediv_mul_of_pos _ _ (by positivity),
      Int.add_mul_ediv_right _ _ (by positivity : (0:Int) < 2 ^ m).ne']
    have hc : ((x / 2 ^ m : Nat) : Int) = (x : Int) / 2 ^ m := by
      rw [Int.ofNat_ediv]
      push_cast
      ring_nf
    rw [hc]
    ring

/-! ## Byte and bit utilities (continued below as lemmas) -/

theorem stable_self (r : BitReader) : Stable r r := ⟨rfl, rfl, rfl, rfl, rfl⟩

theorem Stable.trans {a b c : BitReader} (h1 : Stable a b) (h2 : Stable b c) : Stable a c := by
  obtain ⟨d1, s1, c1, l1, t1⟩ := h1
  obtain ⟨d2, s2, c2, l2, t2⟩ := h2
  exact ⟨d2.trans d1, s2.trans s1, c2.trans c1, l2.trans l1, t2.trans t1⟩

/-! ## Refill lemmas -/

theorem refill_eq_ok (r : BitReader) (hcopy : r.bitsInBuffer / 8 + 8 ≤ r.buffer.length)
    (hlt : r.src.rpos < r.src.data.length) :
    refillBuffer r = .ok { r with
      buffer := setSeg (setSeg r.buffer 0 ((r.buffer.drop (r.bitsInBuffer / 8)).take 8)) 8
        ((r.src.data.drop r.src.rpos).take
          (min (r.buffer.length - 8) (r.src.data.length - r.src.rpos))),
      offset := r.offset - r.bitsInBuffer,
      lazyPosition := r.lazyPosition + r.bitsInBuffer,
      src := { r.src with rpos := (r.src.rpos +
        min (r.buffer.length - 8) (r.src.data.length - r.src.rpos)) },
      bitsInBuffer := (min (r.buffer.length - 8)
        (r.src.data.length - r.src.rpos) * 8) } := by
  have hfl : ((r.src.data.drop r.src.rpos).take
      (min (r.buffer.length - 8) (r.src.data.length - r.src.rpos))).length =
      min (r.buffer.length - 8) (r.src.data.length - r.src.rpos) := by
    rw [List.length_take, List.length_drop]
    rcases Nat.le_total (r.buffer.length - 8) (r.src.data.length - r.src.rpos) with hm | hm
    · rw [Nat.min_eq_left hm, Nat.min_eq_left hm]
    · rw [Nat.min_eq_right hm, Nat.min_eq_right (Nat.le_refl _)]
  rw [refillBuffer, if_pos hcopy]
  simp only [Source.readInto, if_neg (by omega : ¬ (r.src.data.length ≤ r.src.rpos))]
  rw [hfl]
  simp

theorem refill_eq_eof (r : BitReader) (hcopy : r.bitsInBuffer / 8 + 8 ≤ r.buffer.length)
    (hge : r.src.data.length ≤ r.src.rpos) (he : r.endReached = false) :
    refillBuffer r = .ok { r with
      buffer := setSeg r.buffer 0 ((r.buffer.drop (r.bitsInBuffer / 8)).take 8),
      offset := r.offset - r.bitsInBuffer,
      lazyPosition := r.lazyPosition + r.bitsInBuffer,
      bitsInBuffer := 64,
      endReached := true } := by
  rw [refillBuffer, if_pos hcopy]
  simp only [Source.readInto, if_pos hge, he]
  have hseg : setSeg (setSeg r.buffer 0 ((r.buffer.drop (r.bitsInBuffer / 8)).take 8)) 8
      ([] : List Nat) = setSeg r.buffer 0 ((r.buffer.drop (r.bitsInBuffer / 8)).take 8) := by
    rw [setSeg]
    simp [List.take_append_drop]
  simp [hseg]

theorem refill_end (r : BitReader) (hWF : WFn r) (he : r.endReached = true) :
    refillBuffer r = .error .unexpectedEnd := by
  obtain ⟨⟨hb8, hb24⟩, ⟨hbuf, hdata⟩, ⟨hl8, hB8, hBle⟩, hsync, hwin⟩ := hWF
  have hcopy : r.bitsInBuffer / 8 + 8 ≤ r.buffer.length := by omega
  have hge : r.src.data.length ≤ r.src.rpos := by
    rcases hsync with ⟨hf, _, _⟩ | ⟨h1, _⟩
    · rw [he] at hf
      cases hf
    · omega
  rw [refillBuffer, if_pos hcopy]
  simp only [Source.readInto, if_pos hge, he]
  simp

/-- The sled bytes of the refilled buffer. -/
theorem refill_buf1_getD (r : BitReader) (hcopy : r.bitsInBuffer / 8 + 8 ≤ r.buffer.length)
    (i : Nat) (hi : i < 8) :
    (setSeg r.buffer 0 ((r.buffer.drop (r.bitsInBuffer / 8)).take 8)).getD i 0 =
      r.buffer.getD (r.bitsInBuffer / 8 + i) 0 := by
  have hsledlen : ((r.buffer.drop (r.bitsInBuffer / 8)).take 8).length = 8 := by
    rw [List.length_take, List.length_drop]
    omega
  rw [setSeg_getD_mid (Nat.zero_le i) (by rw [hsledlen]; omega) (Nat.zero_le _),
    Nat.sub_zero, getD_drop_take _ _ _ _ hi]

theorem refill_buf1_getD_ge (r : BitReader) (hcopy : r.bitsInBuffer / 8 + 8 ≤ r.buffer.length)
    (i : Nat) (hi : 8 ≤ i) :
    (setSeg r.buffer 0 ((r.buffer.drop (r.bitsInBuffer / 8)).take 8)).getD i 0 =
      r.buffer.getD i 0 := by
  have hsledlen : ((r.buffer.drop (r.bitsInBuffer / 8)).take 8).length = 8 := by
    rw [List.length_take, List.length_drop]
    omega
  exact setSeg_getD_ge (by rw [hsledlen]; omega) (Nat.zero_le _)

theorem refill_buf1_length (r : BitReader) (hcopy : r.bitsInBuffer / 8 + 8 ≤ r.buffer.length) :
    (setSeg r.buffer 0 ((r.buffer.drop (r.bitsInBuffer / 8)).take 8)).length =
      r.buffer.length := by
  apply setSeg_length
  rw [List.length_take, List.length_drop]
  omega

theorem refill_buf1_lt (r : BitReader) (hbuf : ∀ b ∈ r.buffer, b < 256) :
    ∀ b ∈ setSeg r.buffer 0 ((r.buffer.drop (r.bitsInBuffer / 8)).take 8), b < 256 := by
  intro b hb
  rcases setSeg_mem hb with h | h
  · exact hbuf b h
  · exact hbuf b (List.mem_of_mem_drop (List.mem_of_mem_take h))

/-- Successful refill: the invariant is preserved, the position does not
move, `lazyPosition` advances by the consumed bits, and the new
`bitsInBuffer` falls into one of the three documented shapes (full window
read, partial read that exactly reaches the source's end, or first
end-of-source observation). -/
theorem refill_ok (r : BitReader) (hWF : WFn r) (he : r.endReached = false)
    (hoB : r.bitsInBuffer ≤ r.offset) :
    ∃ r', refillBuffer r = .ok r' ∧ WFn r' ∧
      r'.offset = r.offset - r.bitsInBuffer ∧
      r'.lazyPosition = r.lazyPosition + r.bitsInBuffer ∧
      actualPosition r' = actualPosition r ∧
      Stable r r' ∧
      8 ≤ r'.bitsInBuffer ∧
      ((r'.endReached = false ∧ r'.bitsInBuffer = (r.buffer.length - 8) * 8) ∨
       (r'.endReached = false ∧
         8 * r.src.data.length = r'.lazyPosition + r'.bitsInBuffer + 64) ∨
       (r'.endReached = true ∧ r'.bitsInBuffer = 64 ∧
         8 * r.src.data.length ≤ r'.lazyPosition + r'.bitsInBuffer)) := by
  obtain ⟨⟨hb8, hb24⟩, ⟨hbuf, hdata⟩, ⟨hl8, hB8, hBle⟩, hsync, hwin⟩ := hWF
  have hcopy : r.bitsInBuffer / 8 + 8 ≤ r.buffer.length := by omega
  rcases Nat.lt_or_ge r.src.rpos r.src.data.length with hlt | hge
  · -- fresh bytes are available
    have hsy : 8 * r.src.rpos = r.lazyPosition + r.bitsInBuffer + 64 ∧
        r.src.rpos ≤ r.src.data.length := by
      rcases hsync with ⟨_, h2, h3⟩ | ⟨h1, _⟩
      · exact ⟨h2, h3⟩
      · omega
    refine ⟨_, refill_eq_ok r hcopy hlt, ?_⟩
    set got := min (r.buffer.length - 8) (r.src.data.length - r.src.rpos) with hgot
    have hgot1 : 1 ≤ got := by omega
    have hgotL : got ≤ r.buffer.length - 8 := by omega
    have hfl : ((r.src.data.drop r.src.rpos).take got).length = got := by
      rw [List.length_take, List.length_drop]
      omega
    have hbuf1len : (setSeg r.buffer 0 ((r.buffer.drop (r.bitsInBuffer / 8)).take 8)).length =
        r.buffer.length := refill_buf1_length r hcopy
    have hbuf2len : (setSeg (setSeg r.buffer 0 ((r.buffer.drop (r.bitsInBuffer / 8)).take 8)) 8
        ((r.src.data.drop r.src.rpos).take got)).length = r.buffer.length := by
      rw [setSeg_length]
      · exact hbuf1len
      · rw [hfl, hbuf1len]
        omega
    have hlB8 : (r.lazyPosition + r.bitsInBuffer) / 8 = r.lazyPosition / 8 +
        r.bitsInBuffer / 8 := by omega
    refine ⟨⟨⟨by rw [hbuf2len]; exact hb8, by rw [hbuf2len]; exact hb24⟩,
      ⟨?_, hdata⟩, ⟨by dsimp only; omega, by dsimp only; omega,
        by dsimp only; rw [hbuf2len]; omega⟩, ?_, ?_⟩,
      rfl, rfl, ?_, ⟨rfl, rfl, rfl, hbuf2len, rfl⟩, by dsimp only; omega, ?_⟩
    · -- bytes below 256
      intro b hb
      rcases setSeg_mem hb with h1 | h1
      · rcases setSeg_mem h1 with h2 | h2
        · exact hbuf b h2
        · exact hbuf b (List.mem_of_mem_drop (List.mem_of_mem_take h2))
      · exact hdata b (List.mem_of_mem_drop (List.mem_of_mem_take h1))
    · -- source synchronisation
      left
      refine ⟨he, by dsimp only; omega, by dsimp only; omega⟩
    · -- window property
      intro i hiL hiB hiD
      dsimp only at hiL hiB hiD ⊢
      rcases Nat.lt_or_ge i 8 with hi8 | hi8
      · rw [setSeg_getD_lt hi8 (by rw [hbuf1len]; omega), refill_buf1_getD r hcopy i hi8]
        have := hwin (r.bitsInBuffer / 8 + i) (by omega) (by omega) (by omega)
        rw [this]
        congr 1
        omega
      · rcases Nat.lt_or_ge i (8 + got) with higot | higot
        · rw [setSeg_getD_mid hi8 (by rw [hfl]; omega) (by rw [hbuf1len]; omega),
            getD_drop_take _ _ _ _ (by omega : i - 8 < got)]
          congr 1
          omega
        · exfalso
          omega
    · -- position is unchanged
      dsimp only [actualPosition]
      omega
    · -- the shape disjunction
      rcases Nat.le_total (r.buffer.length - 8) (r.src.data.length - r.src.rpos) with hm | hm
      · left
        refine ⟨he, ?_⟩
        dsimp only
        omega
      · right; left
        refine ⟨he, ?_⟩
        dsimp only
        omega
  · -- end of source reached for the first time
    refine ⟨_, refill_eq_eof r hcopy hge he, ?_⟩
    have hbuf1len : (setSeg r.buffer 0 ((r.buffer.drop (r.bitsInBuffer / 8)).take 8)).length =
        r.buffer.length := refill_buf1_length r hcopy
    have hend8 : 8 * r.src.data.length ≤ r.lazyPosition + r.bitsInBuffer + 64 := by
      rcases hsync with ⟨_, h2, h3⟩ | ⟨h1, h2⟩
      · omega
      · omega
    refine ⟨⟨⟨by rw [hbuf1len]; exact hb8, by rw [hbuf1len]; exact hb24⟩,
      ⟨refill_buf1_lt r hbuf, hdata⟩, ⟨by dsimp only; omega, by dsimp only,
        by dsimp only; rw [hbuf1len]; omega⟩, ?_, ?_⟩,
      rfl, rfl, ?_, ⟨rfl, rfl, rfl, hbuf1len, rfl⟩, by dsimp only; omega, ?_⟩
    · -- source synchronisation: the source stands at its end
      right
      rcases hsync with ⟨_, h2, h3⟩ | ⟨h1, h2⟩
      · exact ⟨by dsimp only; omega, by dsimp only; omega⟩
      · exact ⟨h1, by dsimp only; omega⟩
    · -- window property
      intro i hiL hiB hiD
      dsimp only at hiL hiB hiD ⊢
      rcases Nat.lt_or_ge i 8 with hi8 | hi8
      · rw [refill_buf1_getD r hcopy i hi8]
        have := hwin (r.bitsInBuffer / 8 + i) (by omega) (by omega) (by omega)
        rw [this]
        congr 1
        omega
      · exfalso
        omega
    · dsimp only [actualPosition]
      omega
    · right; right
      refine ⟨rfl, rfl, ?_⟩
      dsimp only
      omega

/-- Whatever branch a successful refill took, the counters moved the same
way and the identity fields are untouched. -/
theorem refill_shape {r r1 : BitReader} (h : refillBuffer r = .ok r1) :
    r1.offset = r.offset - r.bitsInBuffer ∧
    r1.lazyPosition = r.lazyPosition + r.bitsInBuffer ∧
    Stable r r1 := by
  rw [refillBuffer] at h
  rcases Nat.decLe (r.bitsInBuffer / 8 + 8) r.buffer.length with hc | hc
  · rw [if_neg hc] at h
    cases h
  · rw [if_pos hc] at h
    have hfl : (r.src.readInto (r.buffer.length - 8)).1.length ≤ r.buffer.length - 8 := by
      rw [Source.readInto]
      rcases Nat.decLe r.src.data.length r.src.rpos with h2 | h2
      · rw [if_neg h2]
        dsimp only
        rw [List.length_take]
        omega
      · rw [if_pos h2]
        simp
    have hb1 : (setSeg r.buffer 0 ((r.buffer.drop (r.bitsInBuffer / 8)).take 8)).length =
        r.buffer.length := refill_buf1_length r hc
    have hb2 : (setSeg (setSeg r.buffer 0 ((r.buffer.drop (r.bitsInBuffer / 8)).take 8)) 8
        (r.src.readInto (r.buffer.length - 8)).1).length = r.buffer.length := by
      rw [setSeg_length]
      · exact hb1
      · rw [hb1]
        omega
    have hsrcdata : (r.src.readInto (r.buffer.length - 8)).2.2.data = r.src.data := by
      rw [Source.readInto]
      rcases Nat.decLe r.src.data.length r.src.rpos with h2 | h2
      · rw [if_neg h2]
      · rw [if_pos h2]
    have hsrcseek : (r.src.readInto (r.buffer.length - 8)).2.2.seekable = r.src.seekable := by
      rw [Source.readInto]
      rcases Nat.decLe r.src.data.length r.src.rpos with h2 | h2
      · rw [if_neg h2]
      · rw [if_pos h2]
    have hsrcclose : (r.src.readInto (r.buffer.length - 8)).2.2.closable = r.src.closable := by
      rw [Source.readInto]
      rcases Nat.decLe r.src.data.length r.src.rpos with h2 | h2
      · rw [if_neg h2]
      · rw [if_pos h2]
    dsimp only at h
    rcases hEof : (r.src.readInto (r.buffer.length - 8)).2.1 with hf | ht
    · rw [hEof] at h
      simp only [Bool.false_eq_true, if_false] at h
      cases h
      exact ⟨rfl, rfl, hsrcdata, hsrcseek, hsrcclose, hb2, rfl⟩
    · rw [hEof] at h
      simp only [if_true] at h
      rcases her : r.endReached with hf2 | ht2
      · rw [her] at h
        simp only [Bool.false_eq_true, if_false] at h
        cases h
        exact ⟨rfl, rfl, hsrcdata, hsrcseek, hsrcclose, hb2, rfl⟩
      · rw [her] at h
        simp only [if_true] at h
        cases h

/-- A successful pass of the refill loop never moves the position, never
touches the chunk stack or the source bytes, and only advances
`lazyPosition`. -/
theorem advanceLoop_shape : ∀ (fuel : Nat) (r r' : BitReader),
    advanceLoop fuel r = .ok r' →
    actualPosition r' = actualPosition r ∧ Stable r r' ∧
    r.lazyPosition ≤ r'.lazyPosition
  | 0, r, r', h => by
    rw [advanceLoop] at h
    cases h
  | fuel + 1, r, r', h => by
    rw [advanceLoop] at h
    rcases Nat.decLt r.bitsInBuffer r.offset with hc | hc
    · rw [if_neg hc] at h
      cases h
      exact ⟨rfl, stable_self _, Nat.le_refl _⟩
    · rw [if_pos hc] at h
      cases h1 : refillBuffer r with
      | error e =>
        rw [h1] at h
        cases h
      | ok r1 =>
        rw [h1] at h
        obtain ⟨ho, hl, hst⟩ := refill_shape h1
        obtain ⟨hp2, hst2, hl2⟩ := advanceLoop_shape fuel r1 r' h
        refine ⟨?_, hst.trans hst2, by omega⟩
        rw [hp2]
        simp only [actualPosition]
        omega

/-- `advance` adds exactly `bits` to the position whenever it returns. -/
theorem advance_shape {bits : Nat} {r r' : BitReader} (h : advance bits r = .ok r') :
    actualPosition r' = actualPosition r + bits ∧ Stable r r' ∧
    r.lazyPosition ≤ r'.lazyPosition := by
  obtain ⟨hp, hst, hl⟩ := advanceLoop_shape _ _ _ h
  refine ⟨?_, hst, hl⟩
  rw [hp]
  simp only [actualPosition]
  omega

/-- The refill loop of `advance` succeeds and restores the offset bound
whenever the target position is within the source's bits and the fuel
budget is respected. -/
theorem advanceLoop_ok : ∀ (fuel : Nat) (r : BitReader), WFn r →
    actualPosition r ≤ 8 * r.src.data.length →
    (r.endReached = true → r.offset ≤ r.bitsInBuffer) →
    r.offset + 16 ≤ 8 * fuel + r.bitsInBuffer → 1 ≤ fuel →
    ∃ r', advanceLoop fuel r = .ok r' ∧ WFn r' ∧
      actualPosition r' = actualPosition r ∧
      r'.offset ≤ r'.bitsInBuffer ∧ Stable r r'
  | 0, r, _, _, _, _, hf => by omega
  | fuel + 1, r, hWF, hsup, hend, hfuel, _ => by
    rw [advanceLoop]
    rcases Nat.decLt r.bitsInBuffer r.offset with hc | hc
    · rw [if_neg hc]
      exact ⟨r, rfl, hWF, rfl, by omega, stable_self r⟩
    · rw [if_pos hc]
      have he : r.endReached = false := by
        rcases hb : r.endReached with h1 | h1
        · rfl
        · exact absurd (hend hb) (by omega)
      obtain ⟨r1, heq, hWF1, ho1, hl1, hp1, hst1, hB1, hcases⟩ :=
        refill_ok r hWF he (by omega)
      rw [heq]
      have hsup1 : actualPosition r1 ≤ 8 * r1.src.data.length := by
        rw [hp1, hst1.1]
        exact hsup
      have hend1 : r1.endReached = true → r1.offset ≤ r1.bitsInBuffer := by
        intro he1
        rcases hcases with ⟨hez, _⟩ | ⟨hez, _⟩ | ⟨_, hB64, hlB⟩
        · rw [he1] at hez
          cases hez
        · rw [he1] at hez
          cases hez
        · have hpos : r1.lazyPosition + r1.offset ≤ 8 * r.src.data.length := by
            have : actualPosition r1 = r1.lazyPosition + r1.offset := rfl
            rw [← this, hp1]
            exact hsup
          omega
      have hfuel1 : r1.offset + 16 ≤ 8 * fuel + r1.bitsInBuffer := by omega
      have hfge : 1 ≤ fuel := by omega
      obtain ⟨r', heq2, hWF2, hp2, ho2, hst2⟩ :=
        advanceLoop_ok fuel r1 hWF1 hsup1 hend1 hfuel1 hfge
      refine ⟨r', heq2, hWF2, ?_, ho2, hst1.trans hst2⟩
      rw [hp2, hp1]

/-- `advance(bits)` on a well-formed reader whose target stays within the
source's bits: success, exact position bump, invariant restored. -/
theorem advance_ok (bits : Nat) (r : BitReader) (hWF : WFn r)
    (hsup : actualPosition r + bits ≤ 8 * r.src.data.length) :
    ∃ r', advance bits r = .ok r' ∧ WFn r' ∧
      actualPosition r' = actualPosition r + bits ∧
      r'.offset ≤ r'.bitsInBuffer ∧ Stable r r' := by
  have hWFb : WFn { r with offset := r.offset + bits } := hWF
  have hsync := hWF.2.2.2.1
  have hendb : ({ r with offset := r.offset + bits } : BitReader).endReached = true →
      ({ r with offset := r.offset + bits } : BitReader).offset ≤
        ({ r with offset := r.offset + bits } : BitReader).bitsInBuffer := by
    intro he
    dsimp only at he ⊢
    rcases hsync with ⟨hez, _, _⟩ | ⟨h1, h2⟩
    · rw [he] at hez
      cases hez
    · have : actualPosition r = r.lazyPosition + r.offset := rfl
      omega
  have hposb : actualPosition { r with offset := r.offset + bits } ≤
      8 * ({ r with offset := r.offset + bits } : BitReader).src.data.length := by
    simp only [actualPosition] at hsup ⊢
    omega
  obtain ⟨r', heq, hWF2, hp2, ho2, hst2⟩ := advanceLoop_ok (r.offset + bits + 2)
    { r with offset := r.offset + bits } hWFb hposb hendb (by dsimp only; omega)
    (by omega)
  refine ⟨r', heq, hWF2, ?_, ho2, hst2⟩
  rw [hp2]
  simp only [actualPosition]
  omega

/-! ## Correctness of the word load and the primitive reads -/

/-- The little-endian word load starting at byte `a`, shifted down to bit
`offset`, equals the reference bits at the current position, whenever the
requested bit range lies inside the loaded word, the valid window, and the
source's bits. -/
theorem load_spec (r : BitReader) (a n : Nat)
    (hbuf : ∀ b ∈ r.buffer, b < 256) (hdata : ∀ b ∈ r.src.data, b < 256)
    (hl8 : r.lazyPosition % 8 = 0)
    (hwin : ∀ i, i < r.buffer.length → 8 * i < r.bitsInBuffer + 64 →
      r.lazyPosition / 8 + i < r.src.data.length →
      r.buffer.getD i 0 = r.src.data.getD (r.lazyPosition / 8 + i) 0)
    (ha8 : a + 8 ≤ r.buffer.length)
    (hlow : 8 * a ≤ r.offset)
    (hhigh : r.offset + n ≤ 8 * a + 64)
    (hwinr : r.offset + n ≤ r.bitsInBuffer + 64)
    (hsup : actualPosition r + n ≤ 8 * r.src.data.length) :
    (leNat ((r.buffer.drop a).take 8) >>> (r.offset - 8 * a)) % 2 ^ n =
      refReadInt r.src.data (actualPosition r) n := by
  have hap : actualPosition r = r.lazyPosition + r.offset := rfl
  apply Nat.eq_of_testBit_eq
  intro j
  rw [Nat.testBit_mod_two_pow, refReadInt_testBit]
  rcases Nat.lt_or_ge j n with hj | hj
  · rw [decide_eq_true hj, Bool.true_and, Bool.true_and,
      Nat.testBit_shiftRight, leNat_testBit]
    have hd : r.offset - 8 * a + j < 64 := by omega
    have hidx : (r.offset - 8 * a + j) / 8 < 8 := by omega
    rw [getD_drop_take _ _ _ _ hidx]
    have hb1 : r.buffer.getD (a + (r.offset - 8 * a + j) / 8) 0 < 256 :=
      getD_lt_256 hbuf _
    have hb2 : r.src.data.getD ((actualPosition r + j) / 8) 0 < 256 :=
      getD_lt_256 hdata _
    rw [Nat.mod_eq_of_lt hb1, Nat.mod_eq_of_lt hb2]
    have hwi := hwin (a + (r.offset - 8 * a + j) / 8) (by omega) (by omega) (by omega)
    rw [hwi]
    have hieq : r.lazyPosition / 8 + (a + (r.offset - 8 * a + j) / 8) =
        (actualPosition r + j) / 8 := by
      rw [hap]
      omega
    have hbeq : (r.offset - 8 * a + j) % 8 = (actualPosition r + j) % 8 := by
      rw [hap]
      omega
    rw [hieq, hbeq]
  · rw [decide_eq_false (by omega : ¬ (j < n)), Bool.false_and, Bool.false_and]

/-- `ReadInt(n)` returns the reference `n` bits and re-establishes the
invariant, for any documented width within the source's supply. -/
theorem readInt_spec (n : Nat) (r : BitReader) (hWF : WF r) (hn : n ≤ 32)
    (hsup : actualPosition r + n ≤ 8 * r.src.data.length) :
    ∃ r', readInt n r = .ok (refReadInt r.src.data (actualPosition r) n, r') ∧ WF r' ∧
      actualPosition r' = actualPosition r + n ∧ Stable r r' := by
  obtain ⟨hWFn, hoff, hend⟩ := hWF
  obtain ⟨⟨hb8, hb24⟩, ⟨hbuf, hdata⟩, ⟨hl8, hB8, hBle⟩, hsync, hwin⟩ := hWFn
  have hap : actualPosition r = r.lazyPosition + r.offset := rfl
  have hacc : r.offset / 8 + 8 ≤ r.buffer.length := by
    rcases hoff with h | ⟨h, _⟩ <;> omega
  have hwinr : r.offset + n ≤ r.bitsInBuffer + 64 := by
    rcases hoff with h | ⟨h1, h2⟩
    · omega
    · omega
  have hval : (leNat ((r.buffer.drop (r.offset / 8)).take 8) >>> (r.offset % 8)) &&&
      (2 ^ n - 1) = refReadInt r.src.data (actualPosition r) n := by
    rw [Nat.and_pow_two_sub_one_eq_mod]
    have hload := load_spec r (r.offset / 8) n hbuf hdata hl8 hwin hacc (by omega)
      (by omega) hwinr hsup
    have hd : r.offset - 8 * (r.offset / 8) = r.offset % 8 := by omega
    rw [hd] at hload
    exact hload
  rw [readInt, leWord, if_pos (by omega)]
  dsimp only
  rw [hval]
  rcases Nat.decLt r.bitsInBuffer (r.offset + n) with hb | hb
  · -- no refill needed
    rw [if_neg hb]
    refine ⟨{ r with offset := r.offset + n }, rfl, ?_, ?_, rfl, rfl, rfl, rfl, rfl⟩
    · refine ⟨⟨⟨hb8, hb24⟩, ⟨hbuf, hdata⟩, ⟨hl8, hB8, hBle⟩, hsync, hwin⟩, ?_, ?_⟩
      · left
        dsimp only
        omega
      · intro _
        dsimp only
        omega
    · dsimp only [actualPosition]
      omega
  · -- one refill
    rw [if_pos hb]
    have he : r.endReached = false := by
      rcases hbe : r.endReached with h1 | h1
      · rfl
      · exfalso
        have h2 := hend hbe
        rcases hsync with ⟨hez, _, _⟩ | ⟨h3, h4⟩
        · rw [hbe] at hez
          cases hez
        · omega
    obtain ⟨r2, heq, hWF2, ho2, hl2, hp2, hst2, hB2, hcases⟩ :=
      refill_ok { r with offset := r.offset + n }
        (⟨⟨hb8, hb24⟩, ⟨hbuf, hdata⟩, ⟨hl8, hB8, hBle⟩, hsync, hwin⟩) he (by dsimp only; omega)
    rw [heq]
    dsimp only at ho2 hl2 hB2 hcases
    have hdl : ({ r with offset := r.offset + n } : BitReader).src.data.length =
      r.src.data.length := rfl
    have hbl : ({ r with offset := r.offset + n } : BitReader).buffer.length =
      r.buffer.length := rfl
    have hoffb : r.offset ≤ r.bitsInBuffer + 64 := by
      rcases hoff with h | ⟨h1, h2⟩ <;> omega
    have ho2v : r2.offset = r.offset + n - r.bitsInBuffer := ho2
    have hl2v : r2.lazyPosition = r.lazyPosition + r.bitsInBuffer := hl2
    have ho2le : r2.offset ≤ 64 := by
      rcases hoff with h | ⟨h1, h2⟩
      · omega
      · omega
    refine ⟨r2, rfl, ⟨hWF2, ?_, ?_⟩, ?_, hst2⟩
    · -- offset bound
      rcases hcases with ⟨hez, hBv⟩ | ⟨hez, hBv⟩ | ⟨hez, hBv, hlB⟩
      · left
        omega
      · right
        refine ⟨ho2le, ?_⟩
        rw [hst2.1]
        omega
      · left
        omega
    · intro he2
      rcases hcases with ⟨hez, hBv⟩ | ⟨hez, hBv⟩ | ⟨hez, hBv, hlB⟩
      · rw [he2] at hez
        cases hez
      · rw [he2] at hez
        cases hez
      · omega
    · rw [hp2]
      dsimp only [actualPosition]
      omega


theorem WF_of_le {r : BitReader} (hWFn : WFn r) (h : r.offset ≤ r.bitsInBuffer) : WF r :=
  ⟨hWFn, Or.inl h, fun _ => h⟩

theorem and_shift_ne (b k : Nat) : (b &&& (1 <<< k) != 0) = Nat.testBit b k := by
  rw [Nat.shiftLeft_eq, Nat.one_mul, Nat.and_two_pow]
  cases h : Nat.testBit b k
  · simp
  · simp only [Bool.toNat_true, Nat.one_mul]
    have : (2 : Nat) ^ k ≠ 0 := (Nat.pos_pow_of_pos k (by norm_num)).ne'
    simp [this]

/-- `ReadBit` returns the reference bit at the current position. -/
theorem readBit_spec (r : BitReader) (hWF : WF r)
    (hsup : actualPosition r + 1 ≤ 8 * r.src.data.length) :
    ∃ r', readBit r = .ok (refReadBit r.src.data (actualPosition r), r') ∧ WF r' ∧
      actualPosition r' = actualPosition r + 1 ∧ Stable r r' := by
  obtain ⟨hWFn, hoff, hend⟩ := hWF
  obtain ⟨⟨hb8, hb24⟩, ⟨hbuf, hdata⟩, ⟨hl8, hB8, hBle⟩, hsync, hwin⟩ := hWFn
  have hap : actualPosition r = r.lazyPosition + r.offset := rfl
  have hacc : r.offset / 8 < r.buffer.length := by
    rcases hoff with h | ⟨h, _⟩ <;> omega
  have hoB64 : r.offset < r.bitsInBuffer + 64 := by
    rcases hoff with h | ⟨h1, h2⟩ <;> omega
  have hb := hwin (r.offset / 8) hacc (by omega) (by omega)
  have hval : (r.buffer.getD (r.offset / 8) 0 &&& (1 <<< (r.offset % 8)) != 0) =
      refReadBit r.src.data (actualPosition r) := by
    rw [and_shift_ne, refReadBit_getD, hb,
      Nat.mod_eq_of_lt (getD_lt_256 hdata _)]
    have h1 : r.lazyPosition / 8 + r.offset / 8 = actualPosition r / 8 := by
      rw [hap]
      omega
    have h2 : r.offset % 8 = actualPosition r % 8 := by
      rw [hap]
      omega
    rw [h1, h2]
  obtain ⟨r1, heq, hWF1, hp1, ho1, hst1⟩ := advance_ok 1 r
    ⟨⟨hb8, hb24⟩, ⟨hbuf, hdata⟩, ⟨hl8, hB8, hBle⟩, hsync, hwin⟩ hsup
  refine ⟨r1, ?_, WF_of_le hWF1 ho1, hp1, hst1⟩
  rw [readBit, getByte, if_pos hacc]
  dsimp only
  rw [heq, hval]
  rfl

/-- `ReadSignedInt(n)` returns the two's-complement reinterpretation of the
reference `n` bits, for `1 ≤ n ≤ 32`. -/
theorem readSignedInt_spec (n : Nat) (r : BitReader) (hWF : WF r) (hn1 : 1 ≤ n)
    (hn : n ≤ 32) (hsup : actualPosition r + n ≤ 8 * r.src.data.length) :
    ∃ r', readSignedInt n r =
      .ok (toSigned n (refReadInt r.src.data (actualPosition r) n), r') ∧ WF r' ∧
      actualPosition r' = actualPosition r + n ∧ Stable r r' := by
  obtain ⟨hWFn, hoff, hend⟩ := hWF
  obtain ⟨⟨hb8, hb24⟩, ⟨hbuf, hdata⟩, ⟨hl8, hB8, hBle⟩, hsync, hwin⟩ := hWFn
  have hap : actualPosition r = r.lazyPosition + r.offset := rfl
  have ha : r.offset / 8 / 4 * 4 ≤ r.offset / 8 := by omega
  have hacc : r.offset / 8 / 4 * 4 + 8 ≤ r.buffer.length := by
    rcases hoff with h | ⟨h, _⟩ <;> omega
  have hm : r.offset - 8 * (r.offset / 8 / 4 * 4) = r.offset % 32 := by omega
  have hwinr : r.offset + n ≤ r.bitsInBuffer + 64 := by
    rcases hoff with h | ⟨h1, h2⟩ <;> omega
  have hval8 : ((r.buffer.drop (r.offset / 8 / 4 * 4)).take 8).length = 8 := by
    rw [List.length_take, List.length_drop]
    omega
  have hvlt : leNat ((r.buffer.drop (r.offset / 8 / 4 * 4)).take 8) < 2 ^ 64 := by
    have := leNat_lt ((r.buffer.drop (r.offset / 8 / 4 * 4)).take 8)
    rw [hval8] at this
    exact this
  have hload := load_spec r (r.offset / 8 / 4 * 4) n hbuf hdata hl8 hwin hacc
    (by omega) (by omega) hwinr hsup
  rw [hm] at hload
  have hsar := sar_spec (leNat ((r.buffer.drop (r.offset / 8 / 4 * 4)).take 8))
    (r.offset % 32) n hvlt (by omega) hn1
  rw [hload] at hsar
  obtain ⟨r1, heq, hWF1, hp1, ho1, hst1⟩ := advance_ok n r
    ⟨⟨hb8, hb24⟩, ⟨hbuf, hdata⟩, ⟨hl8, hB8, hBle⟩, hsync, hwin⟩ hsup
  refine ⟨r1, ?_, WF_of_le hWF1 ho1, hp1, hst1⟩
  rw [readSignedInt, leWord, if_pos hacc]
  dsimp only
  rw [if_pos (by omega : r.offset % 32 + n ≤ 64 ∧ n ≤ 64)]
  rw [heq]
  dsimp only [Except.map]
  rw [hsar]

/-- `ReadBitsToByte(n)` (`n ≤ 8`) equals the reference bits. -/
theorem readBitsToByte_spec (n : Nat) (r : BitReader) (hWF : WF r) (hn : n ≤ 8)
    (hsup : actualPosition r + n ≤ 8 * r.src.data.length) :
    ∃ r', readBitsToByte n r = .ok (refReadInt r.src.data (actualPosition r) n, r') ∧
      WF r' ∧ actualPosition r' = actualPosition r + n ∧ Stable r r' := by
  obtain ⟨r1, heq, hWF1, hp1, hst1⟩ := readInt_spec n r hWF (by omega) hsup
  refine ⟨r1, ?_, hWF1, hp1, hst1⟩
  rw [readBitsToByte, heq]
  dsimp only [Except.map]
  rw [Nat.mod_eq_of_lt]
  calc refReadInt r.src.data (actualPosition r) n < 2 ^ n := refReadInt_lt _ _ _
  _ ≤ 2 ^ 8 := Nat.pow_le_pow_right (by norm_num) hn
  _ = 256 := by norm_num

/-- `readByteInternal` with the alignment flag of the current offset. -/
theorem readByteInternal_spec (r : BitReader) (hWF : WF r)
    (hsup : actualPosition r + 8 ≤ 8 * r.src.data.length) :
    ∃ r', readByteInternal (r.offset % 8 != 0) r =
      .ok (refReadInt r.src.data (actualPosition r) 8, r') ∧ WF r' ∧
      actualPosition r' = actualPosition r + 8 ∧ Stable r r' := by
  rcases hal : r.offset % 8 == 0 with ht | hf
  · -- unaligned: via ReadBitsToByte(8)
    have hne : (r.offset % 8 != 0) = true := by
      simp only [bne_iff_ne]
      intro hz
      rw [hz] at hal
      simp at hal
    obtain ⟨r1, heq, hWF1, hp1, hst1⟩ := readBitsToByte_spec 8 r hWF (by omega) hsup
    refine ⟨r1, ?_, hWF1, hp1, hst1⟩
    rw [readByteInternal, hne]
    exact heq
  · -- aligned: fast byte access
    have hz : r.offset % 8 = 0 := by
      have := of_decide_eq_true (by exact hal)
      exact this
    obtain ⟨hWFn, hoff, hend⟩ := hWF
    obtain ⟨⟨hb8, hb24⟩, ⟨hbuf, hdata⟩, ⟨hl8, hB8, hBle⟩, hsync, hwin⟩ := hWFn
    have hap : actualPosition r = r.lazyPosition + r.offset := rfl
    have hacc : r.offset / 8 < r.buffer.length := by
      rcases hoff with h | ⟨h, _⟩ <;> omega
    have hb := hwin (r.offset / 8) hacc
      (by rcases hoff with h | ⟨h1, h2⟩ <;> omega)
      (by omega)
    have hposal : actualPosition r = 8 * (actualPosition r / 8) := by
      rw [hap]
      omega
    have hval : r.buffer.getD (r.offset / 8) 0 =
        refReadInt r.src.data (actualPosition r) 8 := by
      rw [hb]
      have h1 : r.lazyPosition / 8 + r.offset / 8 = actualPosition r / 8 := by
        rw [hap]
        omega
      rw [h1]
      rw [hposal, refReadInt_byte _ _ hdata]
      have h2 : 8 * (actualPosition r / 8) / 8 = actualPosition r / 8 := by omega
      rw [h2]
    obtain ⟨r1, heq, hWF1, hp1, ho1, hst1⟩ := advance_ok 8 r
      ⟨⟨hb8, hb24⟩, ⟨hbuf, hdata⟩, ⟨hl8, hB8, hBle⟩, hsync, hwin⟩ hsup
    refine ⟨r1, ?_, WF_of_le hWF1 ho1, hp1, hst1⟩
    have hne : (r.offset % 8 != 0) = false := by
      simp [hz]
    have hred : readByteInternal (r.offset % 8 != 0) r =
        match getByte r.buffer (r.offset / 8) with
        | .error e => .error e
        | .ok b => (advance 8 r).map fun r1 => (b, r1) := by
      rw [readByteInternal, hne]
      rfl
    rw [hred, getByte, if_pos hacc]
    dsimp only
    rw [heq, hval]
    rfl

theorem refBytes_length (data : List Nat) (p n : Nat) : (refBytes data p n).length = n := by
  rw [refBytes, List.length_map, List.length_range]

theorem refBytes_getD (data : List Nat) (p n i : Nat) (hi : i < n) :
    (refBytes data p n).getD i 0 = refReadInt data (p + 8 * i) 8 := by
  rw [refBytes, List.getD_eq_getElem?_getD, List.getElem?_map, List.getElem?_range hi]
  rfl

theorem refBytes_succ (data : List Nat) (p k : Nat) :
    refBytes data p (k + 1) = refReadInt data p 8 :: refBytes data (p + 8) k := by
  rw [refBytes, refBytes, List.range_succ_eq_map, List.map_cons, List.map_map]
  congr 1
  apply List.map_congr_left
  intro a _
  simp only [Function.comp_apply]
  congr 1
  omega

/-- The byte-by-byte loop shared by `ReadBits` and `ReadBytesInto`. -/
theorem readBytesLoop_spec : ∀ (k : Nat) (r : BitReader), WF r →
    actualPosition r + 8 * k ≤ 8 * r.src.data.length →
    ∃ r', readBytesLoop (r.offset % 8 != 0) k r =
      .ok (refBytes r.src.data (actualPosition r) k, r') ∧ WF r' ∧
      actualPosition r' = actualPosition r + 8 * k ∧ Stable r r'
  | 0, r, hWF, _ => by
    refine ⟨r, ?_, hWF, by omega, stable_self r⟩
    rw [readBytesLoop, refBytes]
    rfl
  | k + 1, r, hWF, hsup => by
    obtain ⟨r1, heq1, hWF1, hp1, hst1⟩ := readByteInternal_spec r hWF (by omega)
    have hal : (r1.offset % 8 != 0) = (r.offset % 8 != 0) := by
      have hl8 : r.lazyPosition % 8 = 0 := hWF.1.2.2.1.1
      have hl8a : r1.lazyPosition % 8 = 0 := hWF1.1.2.2.1.1
      have hap : actualPosition r = r.lazyPosition + r.offset := rfl
      have hap1 : actualPosition r1 = r1.lazyPosition + r1.offset := rfl
      have : r1.offset % 8 = r.offset % 8 := by omega
      rw [this]
    obtain ⟨r2, heq2, hWF2, hp2, hst2⟩ := readBytesLoop_spec k r1 hWF1
      (by rw [hp1, hst1.1]; omega)
    rw [hal] at heq2
    refine ⟨r2, ?_, hWF2, by omega, hst1.trans hst2⟩
    rw [readBytesLoop, heq1]
    dsimp only
    rw [heq2]
    dsimp only
    rw [refBytes_succ]
    congr 2
    rw [hst1.1, hp1]

/-- `ReadBytes(n)`/`ReadBytesInto` return the `n` reference bytes, by the
contiguous fast path or the loop. -/
theorem readBytesN_spec (n : Nat) (r : BitReader) (hWF : WF r)
    (hsup : actualPosition r + 8 * n ≤ 8 * r.src.data.length) :
    ∃ r', readBytesN n r = .ok (refBytes r.src.data (actualPosition r) n, r') ∧ WF r' ∧
      actualPosition r' = actualPosition r + 8 * n ∧ Stable r r' := by
  rcases hfast : (!(r.offset % 8 != 0) && decide (r.offset + n * 8 ≤ r.bitsInBuffer)) with hf | ht
  · -- slow path: the loop
    obtain ⟨r1, heq1, hWF1, hp1, hst1⟩ := readBytesLoop_spec n r hWF hsup
    refine ⟨r1, ?_, hWF1, hp1, hst1⟩
    rw [readBytesN]
    rw [hfast]
    exact heq1
  · -- fast path: aligned and fully buffered
    have hcond := hfast
    rw [Bool.and_eq_true] at hcond
    have hz : r.offset % 8 = 0 ∧ r.offset + n * 8 ≤ r.bitsInBuffer := by
      constructor
      · have h2 := hcond.1
        rw [Bool.not_eq_true'] at h2
        exact eq_of_beq (by simpa [bne] using h2)
      · exact of_decide_eq_true hcond.2
    obtain ⟨hWFn, hoff, hend⟩ := hWF
    obtain ⟨⟨hb8, hb24⟩, ⟨hbuf, hdata⟩, ⟨hl8, hB8, hBle⟩, hsync, hwin⟩ := hWFn
    have hap : actualPosition r = r.lazyPosition + r.offset := rfl
    have hinb : r.offset / 8 + n ≤ r.buffer.length := by omega
    have hslice : (r.buffer.drop (r.offset / 8)).take n =
        refBytes r.src.data (actualPosition r) n := by
      apply List.ext_getElem
      · rw [List.length_take, List.length_drop, refBytes_length]
        omega
      · intro i h1 h2
        have hiln : i < n := by
          rw [refBytes_length] at h2
          exact h2
        rw [← List.getD_eq_getElem _ 0, ← List.getD_eq_getElem _ 0,
          getD_drop_take _ _ _ _ hiln, refBytes_getD _ _ _ _ hiln]
        have hw := hwin (r.offset / 8 + i) (by omega) (by omega) (by omega)
        rw [hw]
        have hpos8 : actualPosition r + 8 * i = 8 * (r.lazyPosition / 8 +
            (r.offset / 8 + i)) := by
          rw [hap]
          omega
        rw [hpos8, refReadInt_byte _ _ hdata]
    obtain ⟨r1, heq, hWF1, hp1, ho1, hst1⟩ := advance_ok (n * 8) r
      ⟨⟨hb8, hb24⟩, ⟨hbuf, hdata⟩, ⟨hl8, hB8, hBle⟩, hsync, hwin⟩ (by omega)
    refine ⟨r1, ?_, WF_of_le hWF1 ho1, by omega, hst1⟩
    rw [readBytesN]
    rw [hfast, if_pos hinb, heq]
    dsimp only [Except.map]
    rw [hslice]
    rfl

/-- `ReadBits(n)` returns the reference byte list of the `n` bits. -/
theorem readBits_spec (n : Nat) (r : BitReader) (hWF : WF r)
    (hsup : actualPosition r + n ≤ 8 * r.src.data.length) :
    ∃ r', readBits n r = .ok (refBits r.src.data (actualPosition r) n, r') ∧ WF r' ∧
      actualPosition r' = actualPosition r + n ∧ Stable r r' := by
  obtain ⟨r1, heq1, hWF1, hp1, hst1⟩ := readBytesLoop_spec (n / 8) r hWF (by omega)
  rcases hrem : (n % 8 != 0) with hf | ht
  · have hz : n % 8 = 0 := by
      have h2 : (n % 8 == 0) = true := by
        have h3 := hrem
        rw [bne, Bool.not_eq_false'] at h3
        exact h3
      exact eq_of_beq h2
    refine ⟨r1, ?_, hWF1, by omega, hst1⟩
    rw [readBits]
    rw [heq1]
    dsimp only
    rw [hrem]
    rw [if_neg Bool.false_ne_true]
    rw [refBits]
    rw [if_neg (show ¬ (n % 8 ≠ 0) by omega)]
    rw [List.append_nil]
  · obtain ⟨r2, heq2, hWF2, hp2, hst2⟩ := readBitsToByte_spec (n % 8) r1 hWF1 (by omega)
      (by rw [hp1, hst1.1]; omega)
    refine ⟨r2, ?_, hWF2, by omega, hst1.trans hst2⟩
    rw [readBits]
    rw [heq1]
    dsimp only
    rw [hrem]
    rw [if_pos rfl]
    rw [heq2]
    dsimp only [Except.map]
    have hnz : n % 8 ≠ 0 := by
      rw [bne_iff_ne] at hrem
      exact hrem
    rw [refBits]
    rw [if_pos hnz]
    congr 3
    rw [hst1.1, hp1]

/-- `ReadCString(n)`: the `n` reference bytes truncated at the first zero. -/
theorem readCString_spec (n : Nat) (r : BitReader) (hWF : WF r)
    (hsup : actualPosition r + 8 * n ≤ 8 * r.src.data.length) :
    ∃ r', readCString n r =
      .ok ((refBytes r.src.data (actualPosition r) n).takeWhile (fun b => b != 0), r') ∧
      WF r' ∧ actualPosition r' = actualPosition r + 8 * n ∧ Stable r r' := by
  obtain ⟨r1, heq1, hWF1, hp1, hst1⟩ := readBytesN_spec n r hWF hsup
  refine ⟨r1, ?_, hWF1, hp1, hst1⟩
  rw [readCString, heq1]
  rfl

/-- `Skip(n)` lands exactly `n` bits further whenever the target stays
strictly inside the source, by seeking or by advancing. -/
theorem skip_spec (n : Nat) (r : BitReader) (hWF : WF r)
    (hsup : actualPosition r + n < 8 * r.src.data.length) :
    ∃ r', skip n r = .ok r' ∧ WF r' ∧
      actualPosition r' = actualPosition r + n ∧ Stable r r' := by
  obtain ⟨hWFn, hoff, hend⟩ := hWF
  obtain ⟨⟨hb8, hb24⟩, ⟨hbuf, hdata⟩, ⟨hl8, hB8, hBle⟩, hsync, hwin⟩ := hWFn
  have hap : actualPosition r = r.lazyPosition + r.offset := rfl
  by_cases hc : ((r.bitsInBuffer : Int) - (r.offset : Int)) + 64 < (n : Int) ∧
      r.src.seekable = true
  · -- seek path
    have hcN : r.bitsInBuffer + 64 < n + r.offset := by
      have := hc.1
      omega
    have hsy : r.endReached = false ∧
        8 * r.src.rpos = r.lazyPosition + r.bitsInBuffer + 64 ∧
        r.src.rpos ≤ r.src.data.length := by
      rcases hsync with h | ⟨h1, h2⟩
      · exact h
      · exfalso
        rcases hoff with ho | ⟨ho1, ho2⟩ <;> omega
    set U : Nat := n + r.offset - r.bitsInBuffer with hU
    have hU64 : 64 < U := by omega
    set NP : Nat := r.src.rpos + U / 8 - 8 with hNP
    have hrpos8 : 8 ≤ r.src.rpos := by omega
    have hNP8 : 8 * NP = actualPosition r + n - U % 8 := by
      rw [hap]
      omega
    have hNPlt : NP < r.src.data.length := by omega
    set got := min r.buffer.length (r.src.data.length - NP) with hgot
    have hgot1 : 1 ≤ got := by omega
    have hfl : ((r.src.data.drop NP).take got).length = got := by
      rw [List.length_take, List.length_drop]
      omega
    have hueq : (n : Int) - ((r.bitsInBuffer : Int) - (r.offset : Int)) = (U : Int) := by
      omega
    have hnpeq : (r.src.rpos : Int) + ((U : Int) / 8 - 8) = (NP : Int) := by
      have h8 : ((U / 8 : Nat) : Int) = (U : Int) / 8 := Int.ofNat_ediv U 8
      omega
    have hmod : (((U : Int)) % 8).toNat = U % 8 := by omega
    have hnpt : ((NP : Int)).toNat = NP := by omega
    rw [skip]
    rw [if_pos hc]
    dsimp only
    rw [hueq, hnpeq]
    rw [if_neg (by omega : ¬ ((NP : Int) < 0))]
    rw [hnpt, hmod]
    have hread : Source.readInto { r.src with rpos := NP } r.buffer.length =
        ((r.src.data.drop NP).take got, false,
          { r.src with rpos := NP + got }) := by
      rw [Source.readInto]
      rw [if_neg (by dsimp only; omega)]
    rw [hread]
    dsimp only
    rw [hfl]
    set fresh := (r.src.data.drop NP).take got with hfresh
    have hblen : (setSeg r.buffer 0 fresh).length = r.buffer.length := by
      apply setSeg_length
      rw [hfl]
      omega
    have hfmem : ∀ b ∈ setSeg r.buffer 0 fresh, b < 256 := by
      intro b hb
      rcases setSeg_mem hb with h | h
      · exact hbuf b h
      · exact hdata b (List.mem_of_mem_drop (List.mem_of_mem_take h))
    have hwin2 : ∀ i, i < r.buffer.length →
        8 * i < (if got ≤ 8 then got * 8 else got * 8 - 64) + 64 →
        NP + i < r.src.data.length →
        (setSeg r.buffer 0 fresh).getD i 0 = r.src.data.getD (NP + i) 0 := by
      intro i hiL hiB hiD
      rcases Nat.lt_or_ge i got with hig | hig
      · rw [setSeg_getD_mid (Nat.zero_le i) (by rw [hfl]; omega) (Nat.zero_le _),
          Nat.sub_zero, hfresh, getD_drop_take _ _ _ _ hig]
      · exfalso
        rcases Nat.decLe got 8 with hg8 | hg8
        · rw [if_neg hg8] at hiB
          omega
        · rw [if_pos hg8] at hiB
          have : got = r.src.data.length - NP := by omega
          omega
    refine ⟨_, rfl, ⟨⟨⟨?_, ?_⟩, ⟨hfmem, hdata⟩, ⟨?_, ?_, ?_⟩, ?_, ?_⟩, ?_, ?_⟩, ?_, ?_⟩
    · dsimp only
      rw [hblen]
      exact hb8
    · dsimp only
      rw [hblen]
      exact hb24
    · dsimp only
      omega
    · dsimp only
      rcases Nat.decLe got 8 with hg8 | hg8
      · rw [if_neg hg8]
        omega
      · rw [if_pos hg8]
        omega
    · dsimp only
      rw [hblen]
      rcases Nat.decLe got 8 with hg8 | hg8
      · rw [if_neg hg8]
        omega
      · rw [if_pos hg8]
        omega
    · -- synchronisation after the seek
      dsimp only
      rcases Nat.decLe got 8 with hg8 | hg8
      · rw [if_neg hg8]
        left
        refine ⟨hsy.1, by omega, by omega⟩
      · rw [if_pos hg8]
        right
        have hgotv : got = r.src.data.length - NP := by omega
        refine ⟨by omega, by omega⟩
    · -- window after the seek
      dsimp only
      intro i hiL hiB hiD
      have h8 : (NP * 8) / 8 = NP := by omega
      rw [h8] at hiD ⊢
      exact hwin2 i (by rw [hblen] at hiL; exact hiL) hiB hiD
    · -- offset bound
      left
      dsimp only
      rcases Nat.decLe got 8 with hg8 | hg8
      · rw [if_neg hg8]
        omega
      · rw [if_pos hg8]
        omega
    · -- endReached bound
      intro he2
      dsimp only at he2
      rw [hsy.1] at he2
      cases he2
    · -- final position
      dsimp only [actualPosition]
      omega
    · exact ⟨rfl, rfl, rfl, hblen, rfl⟩
  · -- advance path
    obtain ⟨r1, heq, hWF1, hp1, ho1, hst1⟩ := advance_ok n r
      ⟨⟨hb8, hb24⟩, ⟨hbuf, hdata⟩, ⟨hl8, hB8, hBle⟩, hsync, hwin⟩ (by omega)
    refine ⟨r1, ?_, WF_of_le hWF1 ho1, hp1, hst1⟩
    rw [skip]
    rw [if_neg hc]
    exact heq

/-- `BeginChunk` only pushes a target; everything else is untouched. -/
theorem beginChunk_spec (n : Nat) (r : BitReader) (hWF : WF r) :
    WF (beginChunk n r) ∧ actualPosition (beginChunk n r) = actualPosition r ∧
    (beginChunk n r).chunkTargets = r.chunkTargets ++ [actualPosition r + n] ∧
    (beginChunk n r).src = r.src ∧ (beginChunk n r).buffer = r.buffer := by
  refine ⟨?_, rfl, rfl, rfl, rfl⟩
  obtain ⟨⟨⟨hb8, hb24⟩, ⟨hbuf, hdata⟩, ⟨hl8, hB8, hBle⟩, hsync, hwin⟩, hoff, hend⟩ := hWF
  exact ⟨⟨⟨hb8, hb24⟩, ⟨hbuf, hdata⟩, ⟨hl8, hB8, hBle⟩, hsync, hwin⟩, hoff, hend⟩

/-- `ChunkFinished` compares the top target with the position. -/
theorem chunkFinished_spec (r : BitReader) (ts : List Nat) (t : Nat)
    (hts : r.chunkTargets = ts ++ [t]) :
    chunkFinished r = .ok (decide (t ≤ actualPosition r)) := by
  rw [chunkFinished, hts, List.getLast?_concat]

/-- `EndChunk` pops the target and lands exactly on it when the caller has
not overrun and (if a skip is needed) the target lies strictly inside the
source. -/
theorem endChunk_spec (r : BitReader) (hWF : WF r) (ts : List Nat) (t : Nat)
    (hts : r.chunkTargets = ts ++ [t]) (hpt : actualPosition r ≤ t)
    (htl : actualPosition r = t ∨ t < 8 * r.src.data.length) :
    ∃ r', endChunk r = .ok r' ∧ WF r' ∧ actualPosition r' = t ∧
      r'.chunkTargets = ts ∧ r'.src.data = r.src.data ∧
      r'.src.seekable = r.src.seekable ∧ r'.src.closable = r.src.closable ∧
      r'.buffer.length = r.buffer.length := by
  have hWF1 : WF { r with chunkTargets := r.chunkTargets.dropLast } := by
    obtain ⟨⟨⟨hb8, hb24⟩, ⟨hbuf, hdata⟩, ⟨hl8, hB8, hBle⟩, hsync, hwin⟩, hoff, hend⟩ := hWF
    exact ⟨⟨⟨hb8, hb24⟩, ⟨hbuf, hdata⟩, ⟨hl8, hB8, hBle⟩, hsync, hwin⟩, hoff, hend⟩
  have hdrop : r.chunkTargets.dropLast = ts := by
    rw [hts, List.dropLast_concat]
  rw [endChunk, hts, List.getLast?_concat]
  dsimp only
  rw [← hts]
  have hap1 : actualPosition { r with chunkTargets := r.chunkTargets.dropLast } =
      actualPosition r := rfl
  rcases Nat.lt_or_ge (actualPosition r) t with hlt | hge
  · -- a positive skip is needed
    have hd0 : ¬ ((t : Int) - (actualPosition { r with chunkTargets :=
        r.chunkTargets.dropLast } : Int) < 0) := by
      rw [hap1]
      omega
    rw [if_neg hd0]
    have hdpos : (0 : Int) < (t : Int) - (actualPosition { r with chunkTargets :=
        r.chunkTargets.dropLast } : Int) := by
      rw [hap1]
      omega
    rw [if_pos hdpos]
    have htoNat : ((t : Int) - (actualPosition { r with chunkTargets :=
        r.chunkTargets.dropLast } : Int)).toNat = t - actualPosition r := by
      rw [hap1]
      omega
    rw [htoNat]
    have hstrict : t < 8 * r.src.data.length := by
      rcases htl with h | h
      · omega
      · exact h
    obtain ⟨r2, heq2, hWF2, hp2, hst2⟩ := skip_spec (t - actualPosition r)
      { r with chunkTargets := r.chunkTargets.dropLast } hWF1 (by
        have hsd : ({ r with chunkTargets := r.chunkTargets.dropLast } :
          BitReader).src.data.length = r.src.data.length := rfl
        rw [hap1, hsd]
        omega)
    rw [heq2]
    dsimp only
    have hp2v : actualPosition r2 = t := by
      rw [hp2, hap1]
      omega
    rw [if_pos hp2v.symm]
    refine ⟨r2, rfl, hWF2, hp2v, ?_, hst2.1, hst2.2.1, hst2.2.2.1, hst2.2.2.2.1⟩
    rw [hst2.2.2.2.2]
    dsimp only
    exact hdrop
  · -- already at the target
    have hpe : actualPosition r = t := by omega
    have hd0 : ¬ ((t : Int) - (actualPosition { r with chunkTargets :=
        r.chunkTargets.dropLast } : Int) < 0) := by
      rw [hap1]
      omega
    rw [if_neg hd0]
    have hdz : ¬ ((0 : Int) < (t : Int) - (actualPosition { r with chunkTargets :=
        r.chunkTargets.dropLast } : Int)) := by
      rw [hap1]
      omega
    rw [if_neg hdz]
    dsimp only
    rw [if_pos (by rw [hap1, hpe])]
    exact ⟨_, rfl, hWF1, by rw [hap1, hpe], hdrop, rfl, rfl, rfl, rfl⟩

/-- Opening a fresh reader on a valid buffer size establishes the
invariant with position zero. -/
theorem mkOpen_spec (data : List Nat) (sz : Nat) (sk cl : Bool)
    (h8 : sz % 8 = 0) (h16 : 16 < sz) (hd : ∀ b ∈ data, b < 256)
    (hne : 0 < data.length) :
    ∃ r, mkOpen data sz sk cl = .ok r ∧ WF r ∧ actualPosition r = 0 ∧
      r.chunkTargets = [] ∧ r.src.data = data ∧ r.src.seekable = sk ∧
      r.src.closable = cl ∧ r.buffer.length = sz ∧ r.offset = 0 ∧
      r.lazyPosition = 0 := by
  have hsz24 : 24 ≤ sz := by omega
  rw [mkOpen, openSized, openWithBuffer]
  rw [List.length_replicate]
  rw [if_neg (by rw [bne, Bool.not_eq_true, Bool.not_eq_false']; exact beq_iff_eq.mpr h8)]
  rw [if_neg (by omega : ¬ (sz ≤ 16))]
  have hread : Source.readInto { data := data, rpos := 0, seekable := sk, closable := cl }
      sz = ((data.drop 0).take (min sz data.length), false,
        { data := data, rpos := 0 + min sz data.length, seekable := sk, closable := cl }) := by
    rw [Source.readInto]
    rw [if_neg (by dsimp only; omega)]
    simp
  rw [hread]
  dsimp only
  have hmrl : mkReader.lazyPosition = 0 := rfl
  have hmro : mkReader.offset = 0 := rfl
  set got := min sz data.length with hgot
  have hgot1 : 1 ≤ got := by omega
  have hgotsz : got ≤ sz := by omega
  have hfl : ((data.drop 0).take got).length = got := by
    rw [List.length_take, List.length_drop]
    omega
  rw [hfl]
  have hblen : (setSeg (List.replicate sz 0) 0 ((data.drop 0).take got)).length = sz := by
    rw [setSeg_length]
    · rw [List.length_replicate]
    · rw [hfl, List.length_replicate]
      omega
  have hbmem : ∀ b ∈ setSeg (List.replicate sz 0) 0 ((data.drop 0).take got), b < 256 := by
    intro b hb
    rcases setSeg_mem hb with h | h
    · rw [List.eq_of_mem_replicate h]
      norm_num
    · exact hd b (List.mem_of_mem_drop (List.mem_of_mem_take h))
  have hwin0 : ∀ i, i < sz → 8 * i < (if got * 8 < 64 then got * 8 else got * 8 - 64) + 64 →
      i < data.length →
      (setSeg (List.replicate sz 0) 0 ((data.drop 0).take got)).getD i 0 =
        data.getD i 0 := by
    intro i hiL hiB hiD
    rcases Nat.lt_or_ge i got with hig | hig
    · rw [setSeg_getD_mid (Nat.zero_le i) (by rw [hfl]; omega)
        (by rw [List.length_replicate]; omega), Nat.sub_zero,
        getD_drop_take _ _ _ _ hig, Nat.zero_add]
    · exfalso
      rcases Nat.decLt (got * 8) 64 with hg8 | hg8
      · rw [if_neg hg8] at hiB
        omega
      · rw [if_pos hg8] at hiB
        have : got = data.length := by omega
        omega
  refine ⟨_, rfl, ⟨⟨⟨?_, ?_⟩, ⟨hbmem, hd⟩, ⟨?_, ?_, ?_⟩, ?_, ?_⟩, ?_, ?_⟩,
    rfl, rfl, rfl, rfl, rfl, ?_, rfl, rfl⟩
  · dsimp only
    rw [hblen]
    exact h8
  · dsimp only
    rw [hblen]
    exact hsz24
  · dsimp only
    omega
  · dsimp only
    rcases Nat.decLt (got * 8) 64 with hg8 | hg8
    · rw [if_neg hg8]
      omega
    · rw [if_pos hg8]
      omega
  · dsimp only
    rw [hblen]
    rcases Nat.decLt (got * 8) 64 with hg8 | hg8
    · rw [if_neg hg8]
      omega
    · rw [if_pos hg8]
      omega
  · dsimp only
    rcases Nat.decLt (got * 8) 64 with hg8 | hg8
    · rw [if_neg hg8]
      left
      refine ⟨rfl, by omega, by omega⟩
    · rw [if_pos hg8]
      right
      have : got = data.length := by omega
      refine ⟨by omega, by omega⟩
  · dsimp only
    intro i hiL hiB hiD
    rw [hmrl, Nat.zero_div, Nat.zero_add] at hiD ⊢
    exact hwin0 i (by rw [hblen] at hiL; exact hiL) hiB hiD
  · left
    dsimp only
    omega
  · intro he2
    cases he2
  · dsimp only
    rw [hblen]

/-! ## Simulation of the reference semantics -/

theorem concat_getLast? : ∀ (l : List Nat) (t : Nat), l.getLast? = some t →
    l.dropLast ++ [t] = l
  | [], _, h => by cases h
  | [a], t, h => by
    have h2 : a = t := by
      have : ([a] : List Nat).getLast? = some a := rfl
      rw [this] at h
      injection h
    rw [h2]
    rfl
  | a :: b :: tl, t, h => by
    have h2 : (b :: tl).getLast? = some t := by
      rw [← h]
      rfl
    have ih := concat_getLast? (b :: tl) t h2
    have hd : (a :: b :: tl).dropLast = a :: (b :: tl).dropLast := rfl
    rw [hd, List.cons_append, ih]


/-- One real step simulates one reference step: same value, and the
simulation relation is re-established. -/
theorem step_ref (data : List Nat) (op : Op) (r : BitReader) (s : RefSt) (v : Val)
    (s' : RefSt) (hsim : Sim data r s) (href : refStep data op s = some (v, s')) :
    ∃ r', step op r = .ok (v, r') ∧ Sim data r' s' ∧
      r'.src.seekable = r.src.seekable ∧ r'.src.closable = r.src.closable ∧
      r'.buffer.length = r.buffer.length := by
  obtain ⟨hWF, hdata, hpos, hchunks⟩ := hsim
  cases op with
  | readBit =>
    rw [refStep] at href
    split at href
    next hcond =>
      injection href with hpair
      cases hpair
      obtain ⟨r1, heq, hWF1, hp1, hst1⟩ := readBit_spec r hWF (by rw [hpos, hdata]; omega)
      refine ⟨r1, ?_, ⟨hWF1, hst1.1.trans hdata, ?_, hst1.2.2.2.2.trans hchunks⟩,
        hst1.2.1, hst1.2.2.1, hst1.2.2.2.1⟩
      · simp only [step]
        rw [heq]
        dsimp only [Except.map]
        rw [hdata, hpos]
      · rw [hp1, hpos]
    next => cases href
  | readInt n =>
    rw [refStep] at href
    split at href
    next hcond =>
      injection href with hpair
      cases hpair
      obtain ⟨r1, heq, hWF1, hp1, hst1⟩ := readInt_spec n r hWF hcond.1
        (by rw [hpos, hdata]; omega)
      refine ⟨r1, ?_, ⟨hWF1, hst1.1.trans hdata, ?_, hst1.2.2.2.2.trans hchunks⟩,
        hst1.2.1, hst1.2.2.1, hst1.2.2.2.1⟩
      · simp only [step]
        rw [heq]
        dsimp only [Except.map]
        rw [hdata, hpos]
      · rw [hp1, hpos]
    next => cases href
  | readSignedInt n =>
    rw [refStep] at href
    split at href
    next hcond =>
      injection href with hpair
      cases hpair
      obtain ⟨r1, heq, hWF1, hp1, hst1⟩ := readSignedInt_spec n r hWF hcond.1 hcond.2.1
        (by rw [hpos, hdata]; omega)
      refine ⟨r1, ?_, ⟨hWF1, hst1.1.trans hdata, ?_, hst1.2.2.2.2.trans hchunks⟩,
        hst1.2.1, hst1.2.2.1, hst1.2.2.2.1⟩
      · simp only [step]
        rw [heq]
        dsimp only [Except.map]
        rw [hdata, hpos]
      · rw [hp1, hpos]
    next => cases href
  | readBitsToByte n =>
    rw [refStep] at href
    split at href
    next hcond =>
      injection href with hpair
      cases hpair
      obtain ⟨r1, heq, hWF1, hp1, hst1⟩ := readBitsToByte_spec n r hWF hcond.1
        (by rw [hpos, hdata]; omega)
      refine ⟨r1, ?_, ⟨hWF1, hst1.1.trans hdata, ?_, hst1.2.2.2.2.trans hchunks⟩,
        hst1.2.1, hst1.2.2.1, hst1.2.2.2.1⟩
      · simp only [step]
        rw [heq]
        dsimp only [Except.map]
        rw [hdata, hpos]
      · rw [hp1, hpos]
    next => cases href
  | readSingleByte =>
    rw [refStep] at href
    split at href
    next hcond =>
      injection href with hpair
      cases hpair
      obtain ⟨r1, heq, hWF1, hp1, hst1⟩ := readByteInternal_spec r hWF
        (by rw [hpos, hdata]; omega)
      refine ⟨r1, ?_, ⟨hWF1, hst1.1.trans hdata, ?_, hst1.2.2.2.2.trans hchunks⟩,
        hst1.2.1, hst1.2.2.1, hst1.2.2.2.1⟩
      · simp only [step, readSingleByte]
        rw [heq]
        dsimp only [Except.map]
        rw [hdata, hpos]
      · rw [hp1, hpos]
    next => cases href
  | readBits n =>
    rw [refStep] at href
    split at href
    next hcond =>
      injection href with hpair
      cases hpair
      obtain ⟨r1, heq, hWF1, hp1, hst1⟩ := readBits_spec n r hWF
        (by rw [hpos, hdata]; omega)
      refine ⟨r1, ?_, ⟨hWF1, hst1.1.trans hdata, ?_, hst1.2.2.2.2.trans hchunks⟩,
        hst1.2.1, hst1.2.2.1, hst1.2.2.2.1⟩
      · simp only [step]
        rw [heq]
        dsimp only [Except.map]
        rw [hdata, hpos]
      · rw [hp1, hpos]
    next => cases href
  | readBytes n =>
    rw [refStep] at href
    split at href
    next hcond =>
      injection href with hpair
      cases hpair
      obtain ⟨r1, heq, hWF1, hp1, hst1⟩ := readBytesN_spec n r hWF
        (by rw [hpos, hdata]; omega)
      refine ⟨r1, ?_, ⟨hWF1, hst1.1.trans hdata, ?_, hst1.2.2.2.2.trans hchunks⟩,
        hst1.2.1, hst1.2.2.1, hst1.2.2.2.1⟩
      · simp only [step]
        rw [heq]
        dsimp only [Except.map]
        rw [hdata, hpos]
      · rw [hp1, hpos]
    next => cases href
  | readCString n =>
    rw [refStep] at href
    split at href
    next hcond =>
      injection href with hpair
      cases hpair
      obtain ⟨r1, heq, hWF1, hp1, hst1⟩ := readCString_spec n r hWF
        (by rw [hpos, hdata]; omega)
      refine ⟨r1, ?_, ⟨hWF1, hst1.1.trans hdata, ?_, hst1.2.2.2.2.trans hchunks⟩,
        hst1.2.1, hst1.2.2.1, hst1.2.2.2.1⟩
      · simp only [step]
        rw [heq]
        dsimp only [Except.map]
        rw [hdata, hpos]
      · rw [hp1, hpos]
    next => cases href
  | skip n =>
    rw [refStep] at href
    split at href
    next hcond =>
      injection href with hpair
      cases hpair
      obtain ⟨r1, heq, hWF1, hp1, hst1⟩ := skip_spec n r hWF (by rw [hpos, hdata]; omega)
      refine ⟨r1, ?_, ⟨hWF1, hst1.1.trans hdata, ?_, hst1.2.2.2.2.trans hchunks⟩,
        hst1.2.1, hst1.2.2.1, hst1.2.2.2.1⟩
      · simp only [step]
        rw [heq]
        rfl
      · rw [hp1, hpos]
    next => cases href
  | beginChunk n =>
    rw [refStep] at href
    injection href with hpair
    cases hpair
    obtain ⟨hWF1, hp1, hc1, hs1, hb1⟩ := beginChunk_spec n r hWF
    refine ⟨beginChunk n r, rfl, ⟨hWF1, ?_, ?_, ?_⟩, ?_, ?_, ?_⟩
    · rw [show (beginChunk n r).src = r.src from hs1, hdata]
    · rw [hp1, hpos]
    · rw [hc1, hchunks, hpos]
    · rw [show (beginChunk n r).src = r.src from hs1]
    · rw [show (beginChunk n r).src = r.src from hs1]
    · rw [show (beginChunk n r).buffer = r.buffer from hb1]
  | endChunk =>
    rw [refStep] at href
    cases hlast : s.chunks.getLast? with
    | none =>
      rw [hlast] at href
      cases href
    | some t =>
      rw [hlast] at href
      dsimp only at href
      split at href
      next hcond =>
        injection href with hpair
        cases hpair
        have hts : r.chunkTargets = s.chunks.dropLast ++ [t] := by
          rw [hchunks, concat_getLast? s.chunks t hlast]
        obtain ⟨r1, heq, hWF1, hp1, hc1, hd1, hs1, hcl1, hb1⟩ :=
          endChunk_spec r hWF s.chunks.dropLast t hts (by rw [hpos]; exact hcond.1)
            (by rw [hpos, hdata]; exact hcond.2)
        refine ⟨r1, ?_, ⟨hWF1, hd1.trans hdata, hp1, hc1⟩, hs1, hcl1, hb1⟩
        simp only [step]
        rw [heq]
        rfl
      next => cases href
  | chunkFinished =>
    rw [refStep] at href
    cases hlast : s.chunks.getLast? with
    | none =>
      rw [hlast] at href
      cases href
    | some t =>
      rw [hlast] at href
      dsimp only at href
      injection href with hpair
      cases hpair
      have hts : r.chunkTargets = s.chunks.dropLast ++ [t] := by
        rw [hchunks, concat_getLast? s.chunks t hlast]
      have heq := chunkFinished_spec r s.chunks.dropLast t hts
      refine ⟨r, ?_, ⟨hWF, hdata, hpos, hchunks⟩, rfl, rfl, rfl⟩
      simp only [step]
      rw [heq]
      dsimp only [Except.map]
      rw [hpos]

/-- Running a list of operations simulates the reference run. -/
theorem runOps_ref (data : List Nat) : ∀ (ops : List Op) (r : BitReader) (s : RefSt)
    (vs : List Val) (s' : RefSt), Sim data r s → refRun data ops s = some (vs, s') →
    ∃ r', runOps ops r = .ok (vs, r') ∧ Sim data r' s' ∧
      r'.src.seekable = r.src.seekable ∧ r'.src.closable = r.src.closable ∧
      r'.buffer.length = r.buffer.length
  | [], r, s, vs, s', hsim, href => by
    rw [refRun] at href
    injection href with hpair
    cases hpair
    exact ⟨r, rfl, hsim, rfl, rfl, rfl⟩
  | op :: ops, r, s, vs, s', hsim, href => by
    rw [refRun] at href
    cases h1 : refStep data op s with
    | none =>
      rw [h1] at href
      cases href
    | some p =>
      rw [h1] at href
      dsimp only at href
      cases h2 : refRun data ops p.2 with
      | none =>
        rw [h2] at href
        cases href
      | some q =>
        rw [h2] at href
        dsimp only at href
        injection href with hpair
        cases hpair
        obtain ⟨r1, heq1, hsim1, hsk1, hcl1, hbl1⟩ := step_ref data op r s p.1 p.2 hsim
          (by rw [h1])
        obtain ⟨r2, heq2, hsim2, hsk2, hcl2, hbl2⟩ := runOps_ref data ops r1 p.2 q.1 q.2
          hsim1 (by rw [h2])
        refine ⟨r2, ?_, hsim2, hsk2.trans hsk1, hcl2.trans hcl1, hbl2.trans hbl1⟩
        rw [runOps, heq1]
        dsimp only
        rw [heq2]

/-! ## Error classification and unconditional position accounting -/

theorem refill_err {r : BitReader} {e : RdErr} (h : refillBuffer r = .error e) :
    e = .unexpectedEnd ∨ e = .outOfBounds := by
  rw [refillBuffer] at h
  rcases Nat.decLe (r.bitsInBuffer / 8 + 8) r.buffer.length with hc | hc
  · rw [if_neg hc] at h
    injection h with h
    exact Or.inr h.symm
  · rw [if_pos hc] at h
    dsimp only at h
    rcases hEof : (r.src.readInto (r.buffer.length - 8)).2.1 with hf | ht
    · rw [hEof] at h
      simp only [Bool.false_eq_true, if_false] at h
      cases h
    · rw [hEof] at h
      simp only [if_true] at h
      rcases her : r.endReached with hf2 | ht2
      · rw [her] at h
        simp only [Bool.false_eq_true, if_false] at h
        cases h
      · rw [her] at h
        simp only [if_true] at h
        injection h with h
        exact Or.inl h.symm

theorem advanceLoop_err : ∀ {f : Nat} {r : BitReader} {e : RdErr},
    advanceLoop f r = .error e → e = .fuel ∨ e = .unexpectedEnd ∨ e = .outOfBounds := by
  intro f
  induction f with
  | zero =>
    intro r e h
    rw [advanceLoop] at h
    injection h with h
    exact Or.inl h.symm
  | succ f ih =>
    intro r e h
    rw [advanceLoop] at h
    rcases Nat.decLt r.bitsInBuffer r.offset with hc | hc
    · rw [if_neg hc] at h
      cases h
    · rw [if_pos hc] at h
      cases h1 : refillBuffer r with
      | error e2 =>
        rw [h1] at h
        injection h with h
        subst h
        rcases refill_err h1 with h2 | h2
        · exact Or.inr (Or.inl h2)
        · exact Or.inr (Or.inr h2)
      | ok r1 =>
        rw [h1] at h
        exact ih h

theorem skip_err {n : Nat} {r : BitReader} {e : RdErr} (h : skip n r = .error e) :
    e ≠ .chunkOverrun ∧ e ≠ .skipMismatch := by
  rw [skip] at h
  by_cases hc : ((r.bitsInBuffer : Int) - (r.offset : Int)) + 64 < (n : Int) ∧
      r.src.seekable = true
  · rw [if_pos hc] at h
    dsimp only at h
    split at h
    · injection h with h
      rw [← h]
      exact ⟨(by intro hx; cases hx), (by intro hx; cases hx)⟩
    · split at h
      · injection h with h
        rw [← h]
        exact ⟨(by intro hx; cases hx), (by intro hx; cases hx)⟩
      · cases h
  · rw [if_neg hc] at h
    rcases advanceLoop_err h with h2 | h2 | h2 <;> rw [h2] <;>
      exact ⟨(by intro hx; cases hx), (by intro hx; cases hx)⟩

theorem readInt_pos {n : Nat} {r : BitReader} {v : Nat} {r' : BitReader}
    (h : readInt n r = .ok (v, r')) :
    actualPosition r' = actualPosition r + n := by
  rw [readInt] at h
  cases h1 : leWord r.buffer (r.offset / 8) with
  | error e =>
    rw [h1] at h
    cases h
  | ok val =>
    rw [h1] at h
    dsimp only at h
    rcases hb : Nat.decLt r.bitsInBuffer (r.offset + n) with hc | hc
    · rw [if_neg hc] at h
      injection h with h
      have h2 : r' = { r with offset := r.offset + n } := (congrArg Prod.snd h).symm
      rw [h2]
      dsimp only [actualPosition]
      omega
    · rw [if_pos hc] at h
      cases h2 : refillBuffer { r with offset := r.offset + n } with
      | error e =>
        rw [h2] at h
        cases h
      | ok r2 =>
        rw [h2] at h
        injection h with h
        have h3 : r' = r2 := (congrArg Prod.snd h).symm
        obtain ⟨ho, hl, hst⟩ := refill_shape h2
        rw [h3]
        dsimp only at ho hl
        simp only [actualPosition, ho, hl]
        omega

theorem readBitsToByte_pos {n : Nat} {r : BitReader} {v : Nat} {r' : BitReader}
    (h : readBitsToByte n r = .ok (v, r')) :
    actualPosition r' = actualPosition r + n := by
  rw [readBitsToByte] at h
  cases h1 : readInt n r with
  | error e =>
    rw [h1] at h
    cases h
  | ok p =>
    rw [h1] at h
    injection h with h
    have h3 : r' = p.2 := (congrArg Prod.snd h).symm
    rw [h3]
    exact readInt_pos (by rw [h1])

theorem readBit_pos {r : BitReader} {v : Bool} {r' : BitReader}
    (h : readBit r = .ok (v, r')) :
    actualPosition r' = actualPosition r + 1 := by
  rw [readBit] at h
  cases h1 : getByte r.buffer (r.offset / 8) with
  | error e =>
    rw [h1] at h
    cases h
  | ok b =>
    rw [h1] at h
    dsimp only at h
    cases h2 : advance 1 r with
    | error e =>
      rw [h2] at h
      cases h
    | ok r1 =>
      rw [h2] at h
      injection h with h
      have h3 : r' = r1 := (congrArg Prod.snd h).symm
      rw [h3]
      exact (advance_shape h2).1

theorem readSignedInt_pos {n : Nat} {r : BitReader} {v : Int} {r' : BitReader}
    (h : readSignedInt n r = .ok (v, r')) :
    actualPosition r' = actualPosition r + n := by
  rw [readSignedInt] at h
  cases h1 : leWord r.buffer (r.offset / 8 / 4 * 4) with
  | error e =>
    rw [h1] at h
    cases h
  | ok val =>
    rw [h1] at h
    dsimp only at h
    split at h
    · cases h2 : advance n r with
      | error e =>
        rw [h2] at h
        cases h
      | ok r1 =>
        rw [h2] at h
        injection h with h
        have h3 : r' = r1 := (congrArg Prod.snd h).symm
        rw [h3]
        exact (advance_shape h2).1
    · cases h

theorem readByteInternal_pos {bl : Bool} {r : BitReader} {v : Nat} {r' : BitReader}
    (h : readByteInternal bl r = .ok (v, r')) :
    actualPosition r' = actualPosition r + 8 := by
  rw [readByteInternal] at h
  rcases bl with hf | ht
  · simp only [Bool.not_false, if_pos] at h
    cases h1 : getByte r.buffer (r.offset / 8) with
    | error e =>
      rw [h1] at h
      cases h
    | ok b =>
      rw [h1] at h
      dsimp only at h
      cases h2 : advance 8 r with
      | error e =>
        rw [h2] at h
        cases h
      | ok r1 =>
        rw [h2] at h
        injection h with h
        have h3 : r' = r1 := (congrArg Prod.snd h).symm
        rw [h3]
        exact (advance_shape h2).1
  · simp only [Bool.not_true, Bool.false_eq_true, if_false] at h
    exact readBitsToByte_pos h

theorem readBytesLoop_pos : ∀ {k : Nat} {bl : Bool} {r : BitReader} {vs : List Nat}
    {r' : BitReader}, readBytesLoop bl k r = .ok (vs, r') →
    actualPosition r' = actualPosition r + 8 * k := by
  intro k
  induction k with
  | zero =>
    intro bl r vs r' h
    rw [readBytesLoop] at h
    injection h with h
    have h3 : r' = r := (congrArg Prod.snd h).symm
    rw [h3]
    omega
  | succ k ih =>
    intro bl r vs r' h
    rw [readBytesLoop] at h
    cases h1 : readByteInternal bl r with
    | error e =>
      rw [h1] at h
      cases h
    | ok p =>
      rw [h1] at h
      dsimp only at h
      cases h2 : readBytesLoop bl k p.2 with
      | error e =>
        rw [h2] at h
        cases h
      | ok q =>
        rw [h2] at h
        injection h with h
        have h3 : r' = q.2 := (congrArg Prod.snd h).symm
        rw [h3]
        have h1e : readByteInternal bl r = .ok (p.1, p.2) := by rw [h1]
        have h2e : readBytesLoop bl k p.2 = .ok (q.1, q.2) := by rw [h2]
        have hp1 : actualPosition p.2 = actualPosition r + 8 := readByteInternal_pos h1e
        have hp2 : actualPosition q.2 = actualPosition p.2 + 8 * k := ih h2e
        omega

theorem readBits_pos {n : Nat} {r : BitReader} {vs : List Nat} {r' : BitReader}
    (h : readBits n r = .ok (vs, r')) :
    actualPosition r' = actualPosition r + n := by
  rw [readBits] at h
  cases h1 : readBytesLoop (r.offset % 8 != 0) (n / 8) r with
  | error e =>
    rw [h1] at h
    cases h
  | ok p =>
    rw [h1] at h
    dsimp only at h
    have h1e : readBytesLoop (r.offset % 8 != 0) (n / 8) r = .ok (p.1, p.2) := by rw [h1]
    have hp1 := readBytesLoop_pos h1e
    rcases hrem : (n % 8 != 0) with hf | ht
    · rw [hrem] at h
      simp only [Bool.false_eq_true, if_false] at h
      injection h with h
      have h3 : r' = p.2 := (congrArg Prod.snd h).symm
      have hz : n % 8 = 0 := by
        have h2 : (n % 8 == 0) = true := by
          have h3b := hrem
          rw [bne, Bool.not_eq_false'] at h3b
          exact h3b
        exact eq_of_beq h2
      rw [h3, hp1]
      omega
    · rw [hrem] at h
      rw [if_pos rfl] at h
      cases h2 : readBitsToByte (n % 8) p.2 with
      | error e =>
        rw [h2] at h
        cases h
      | ok q =>
        rw [h2] at h
        injection h with h
        have h3 : r' = q.2 := (congrArg Prod.snd h).symm
        have h2e : readBitsToByte (n % 8) p.2 = .ok (q.1, q.2) := by rw [h2]
        have hp2 := readBitsToByte_pos h2e
        rw [h3, hp2, hp1]
        omega

theorem readBytesN_pos {n : Nat} {r : BitReader} {vs : List Nat} {r' : BitReader}
    (h : readBytesN n r = .ok (vs, r')) :
    actualPosition r' = actualPosition r + 8 * n := by
  rw [readBytesN] at h
  rcases hfast : (!(r.offset % 8 != 0) && decide (r.offset + n * 8 ≤ r.bitsInBuffer))
    with hf | ht
  · rw [hfast] at h
    simp only [Bool.false_eq_true, if_false] at h
    exact readBytesLoop_pos h
  · rw [hfast] at h
    rw [if_pos rfl] at h
    split at h
    · cases h2 : advance (n * 8) r with
      | error e =>
        rw [h2] at h
        cases h
      | ok r1 =>
        rw [h2] at h
        injection h with h
        have h3 : r' = r1 := (congrArg Prod.snd h).symm
        rw [h3, (advance_shape h2).1]
        omega
    · cases h

theorem readCString_pos {n : Nat} {r : BitReader} {vs : List Nat} {r' : BitReader}
    (h : readCString n r = .ok (vs, r')) :
    actualPosition r' = actualPosition r + 8 * n := by
  rw [readCString] at h
  cases h1 : readBytesN n r with
  | error e =>
    rw [h1] at h
    cases h
  | ok p =>
    rw [h1] at h
    injection h with h
    have h3 : r' = p.2 := (congrArg Prod.snd h).symm
    rw [h3]
    exact readBytesN_pos (by rw [h1] : readBytesN n r = .ok (p.1, p.2))

theorem mkOpen_zero {data : List Nat} {sz : Nat} {sk cl : Bool} {r : BitReader}
    (h : mkOpen data sz sk cl = .ok r) :
    r.offset = 0 ∧ r.lazyPosition = 0 ∧ r.chunkTargets = [] := by
  rw [mkOpen, openSized, openWithBuffer] at h
  split at h
  · cases h
  · split at h
    · cases h
    · dsimp only at h
      split at h
      · cases h
      · injection h with h
        rw [← h]
        exact ⟨rfl, rfl, rfl⟩

theorem map_range_getD (f : Nat → Bool) (n i : Nat) (hi : i < n) :
    ((List.range n).map f).getD i false = f i := by
  rw [List.getD_eq_getElem?_getD, List.getElem?_map, List.getElem?_range hi]
  rfl

theorem sum_testBit : ∀ (n b : Nat), b < 2 ^ n →
    ((List.range n).map (fun i => (Nat.testBit b i).toNat * 2 ^ i)).sum = b
  | 0, b, hb => by
    have : b = 0 := by
      have h1 : (2 : Nat) ^ 0 = 1 := rfl
      omega
    rw [this]
    rfl
  | n + 1, b, hb => by
    rw [List.range_succ, List.map_append, List.sum_append]
    have hmap : (List.range n).map (fun i => (Nat.testBit b i).toNat * 2 ^ i) =
        (List.range n).map (fun i => (Nat.testBit (b % 2 ^ n) i).toNat * 2 ^ i) := by
      apply List.map_congr_left
      intro i hi
      rw [List.mem_range] at hi
      rw [Nat.testBit_mod_two_pow, decide_eq_true hi, Bool.true_and]
    have hblt : b % 2 ^ n < 2 ^ n := Nat.mod_lt _ (Nat.pos_pow_of_pos n (by norm_num))
    rw [hmap, sum_testBit n (b % 2 ^ n) hblt]
    simp only [List.map_cons, List.map_nil, List.sum_cons, List.sum_nil]
    rw [Nat.testBit_to_div_mod]
    have hdm := Nat.div_add_mod b (2 ^ n)
    have hdiv : b / 2 ^ n < 2 := by
      rw [Nat.div_lt_iff_lt_mul (Nat.pos_pow_of_pos n (by norm_num))]
      rw [pow_succ] at hb
      omega
    have hdd : b / 2 ^ n = 0 ∨ b / 2 ^ n = 1 := by
      rcases hv : b / 2 ^ n with _ | k
      · exact Or.inl rfl
      · rw [hv] at hdiv
        have hk : k = 0 := by omega
        rw [hk]
        exact Or.inr rfl
    rcases hdd with hd | hd
    · rw [hd] at hdm
      rw [hd]
      have h0 : (decide (0 % 2 = 1)) = false := by decide
      rw [h0, Bool.toNat_false]
      omega
    · rw [hd] at hdm
      rw [hd]
      have h1 : (decide (1 % 2 = 1)) = true := by decide
      rw [h1, Bool.toNat_true]
      omega

/-- Eight (in general `m`) consecutive `ReadBit` calls return the reference
stream bits in order. -/
theorem runReplicateReadBit : ∀ (m : Nat) (r : BitReader), WF r →
    actualPosition r + m ≤ 8 * r.src.data.length →
    ∃ r', runOps (List.replicate m .readBit) r =
      .ok ((List.range m).map (fun i =>
        Val.b (refReadBit r.src.data (actualPosition r + i))), r') ∧
      WF r' ∧ actualPosition r' = actualPosition r + m ∧ Stable r r'
  | 0, r, hWF, _ => by
    refine ⟨r, ?_, hWF, by omega, stable_self r⟩
    rfl
  | m + 1, r, hWF, hsup => by
    obtain ⟨r1, heq1, hWF1, hp1, hst1⟩ := readBit_spec r hWF (by omega)
    obtain ⟨r2, heq2, hWF2, hp2, hst2⟩ := runReplicateReadBit m r1 hWF1
      (by rw [hp1, hst1.1]; omega)
    refine ⟨r2, ?_, hWF2, by omega, hst1.trans hst2⟩
    rw [List.replicate_succ, runOps]
    have hs : step .readBit r = .ok (.b (refReadBit r.src.data (actualPosition r)), r1) := by
      simp only [step]
      rw [heq1]
      rfl
    rw [hs]
    dsimp only
    rw [heq2]
    dsimp only
    rw [List.range_succ_eq_map, List.map_cons, List.map_map]
    have hhead : Val.b (refReadBit r.src.data (actualPosition r + 0)) =
        Val.b (refReadBit r.src.data (actualPosition r)) := by
      rw [Nat.add_zero]
    rw [hhead]
    have hmaps : List.map (fun i => Val.b (refReadBit r1.src.data (actualPosition r1 + i)))
        (List.range m) =
        List.map ((fun i => Val.b (refReadBit r.src.data (actualPosition r + i))) ∘ Nat.succ)
        (List.range m) := by
      apply List.map_congr_left
      intro a _
      simp only [Function.comp_apply]
      rw [hst1.1, hp1]
      have h4 : actualPosition r + 1 + a = actualPosition r + Nat.succ a := by omega
      rw [h4]
    rw [hmaps]

/-- After exhaustion has been observed, an iteration of the refill loop
that still needs bits fails with `UnexpectedEnd`. -/
theorem advanceLoop_end : ∀ (f : Nat) (r : BitReader), WFn r → r.endReached = true →
    r.bitsInBuffer < r.offset → 1 ≤ f → advanceLoop f r = .error .unexpectedEnd
  | 0, _, _, _, _, hf => absurd hf (by omega)
  | f + 1, r, hWFn, he, hlt, _ => by
    rw [advanceLoop, if_pos hlt, refill_end r hWFn he]


/-- Every read operation that succeeds advances the position by exactly
its bit width. -/
theorem step_read_pos (op : Op) (r : BitReader) (v : Val) (r' : BitReader)
    (hread : op.isRead = true) (h : step op r = .ok (v, r')) :
    actualPosition r' = actualPosition r + op.width := by
  cases op with
  | readBit =>
    simp only [step] at h
    cases h1 : readBit r with
    | error e => rw [h1] at h; cases h
    | ok p =>
      rw [h1] at h
      simp only [Except.map] at h
      injection h with h
      have h2 : r' = p.2 := (congrArg Prod.snd h).symm
      rw [h2]
      exact readBit_pos (by rw [h1] : readBit r = .ok (p.1, p.2))
  | readInt n =>
    simp only [step] at h
    cases h1 : readInt n r with
    | error e => rw [h1] at h; cases h
    | ok p =>
      rw [h1] at h
      simp only [Except.map] at h
      injection h with h
      have h2 : r' = p.2 := (congrArg Prod.snd h).symm
      rw [h2]
      exact readInt_pos (by rw [h1] : readInt n r = .ok (p.1, p.2))
  | readSignedInt n =>
    simp only [step] at h
    cases h1 : readSignedInt n r with
    | error e => rw [h1] at h; cases h
    | ok p =>
      rw [h1] at h
      simp only [Except.map] at h
      injection h with h
      have h2 : r' = p.2 := (congrArg Prod.snd h).symm
      rw [h2]
      exact readSignedInt_pos (by rw [h1] : readSignedInt n r = .ok (p.1, p.2))
  | readBitsToByte n =>
    simp only [step] at h
    cases h1 : readBitsToByte n r with
    | error e => rw [h1] at h; cases h
    | ok p =>
      rw [h1] at h
      simp only [Except.map] at h
      injection h with h
      have h2 : r' = p.2 := (congrArg Prod.snd h).symm
      rw [h2]
      exact readBitsToByte_pos (by rw [h1] : readBitsToByte n r = .ok (p.1, p.2))
  | readSingleByte =>
    simp only [step, readSingleByte] at h
    cases h1 : readByteInternal (r.offset % 8 != 0) r with
    | error e => rw [h1] at h; cases h
    | ok p =>
      rw [h1] at h
      simp only [Except.map] at h
      injection h with h
      have h2 : r' = p.2 := (congrArg Prod.snd h).symm
      rw [h2]
      exact readByteInternal_pos (by rw [h1] : readByteInternal _ r = .ok (p.1, p.2))
  | readBits n =>
    simp only [step] at h
    cases h1 : readBits n r with
    | error e => rw [h1] at h; cases h
    | ok p =>
      rw [h1] at h
      simp only [Except.map] at h
      injection h with h
      have h2 : r' = p.2 := (congrArg Prod.snd h).symm
      rw [h2]
      exact readBits_pos (by rw [h1] : readBits n r = .ok (p.1, p.2))
  | readBytes n =>
    simp only [step] at h
    cases h1 : readBytesN n r with
    | error e => rw [h1] at h; cases h
    | ok p =>
      rw [h1] at h
      simp only [Except.map] at h
      injection h with h
      have h2 : r' = p.2 := (congrArg Prod.snd h).symm
      rw [h2]
      exact readBytesN_pos (by rw [h1] : readBytesN n r = .ok (p.1, p.2))
  | readCString n =>
    simp only [step] at h
    cases h1 : readCString n r with
    | error e => rw [h1] at h; cases h
    | ok p =>
      rw [h1] at h
      simp only [Except.map] at h
      injection h with h
      have h2 : r' = p.2 := (congrArg Prod.snd h).symm
      rw [h2]
      exact readCString_pos (by rw [h1] : readCString n r = .ok (p.1, p.2))
  | skip n => cases hread
  | beginChunk n => cases hread
  | endChunk => cases hread
  | chunkFinished => cases hread


/-! ## The claims -/

/-- C1 counterexample: the claim fails as stated.  On a seekable 40-byte
source freshly opened with a 24-byte buffer (`seekReader40` is exactly
`mkOpen (List.range 40) 24 true false`), `BeginChunk 320` immediately
followed by `EndChunk` with no intervening reads does not leave the
position 320 bits further: the seek path of `Skip` hits `io.EOF` on its
unconditional `Read` at the exact end of the source and panics
(`panic(err)` in `Skip`), even though the target `320 = 8 * 40` is the
last position of the stream. -/
theorem C1_counterexample :
    mkOpen (List.range 40) 24 true false = .ok seekReader40 ∧
    seekReader40.src.seekable = true ∧ WF seekReader40 ∧
    actualPosition seekReader40 = 0 ∧ 8 * seekReader40.src.data.length = 320 ∧
    endChunk (beginChunk 320 seekReader40) = .error .eofPanic :=
  ⟨rfl, rfl, by decide, rfl, rfl, rfl⟩

/-- C1 amended: for every well-formed open cursor and every chunk length
`n > 0` whose end lies strictly inside the source (`position + n` strictly
below the total bit count), `BeginChunk n` immediately followed by
`EndChunk` with no intervening reads lands exactly `n` bits past the
position of the `BeginChunk`, restores the chunk stack, and the internal
consistency assertion does not fire — whether or not the source is
seekable. -/
theorem C1_amended (n : Nat) (r : BitReader) (hWF : WF r) (hn : 0 < n)
    (hsup : actualPosition r + n < 8 * r.src.data.length) :
    ∃ r', endChunk (beginChunk n r) = .ok r' ∧ WF r' ∧
      actualPosition r' = actualPosition r + n ∧
      r'.chunkTargets = r.chunkTargets := by
  have hn0 := hn
  obtain ⟨hWFb, hpb, hcb, hsb, hbb⟩ := beginChunk_spec n r hWF
  have hdl : (beginChunk n r).src.data.length = r.src.data.length := by rw [hsb]
  obtain ⟨r', heq, hWF', hp', hc', _, _, _, _⟩ := endChunk_spec (beginChunk n r) hWFb
    r.chunkTargets (actualPosition r + n) hcb (by rw [hpb]; omega)
    (by right; rw [hdl]; omega)
  exact ⟨r', heq, hWF', hp', hc'⟩

/-- Witness for the amended C1 at a concrete seekable cursor: `openedReader`
(41 source bytes, 24-byte buffer) with `n = 320 < 328`. -/
theorem C1_witness :
    WF openedReader ∧ 0 < 320 ∧
    actualPosition openedReader + 320 < 8 * openedReader.src.data.length ∧
    (∃ r', endChunk (beginChunk 320 openedReader) = .ok r' ∧ WF r' ∧
      actualPosition r' = actualPosition openedReader + 320 ∧
      r'.chunkTargets = openedReader.chunkTargets) :=
  ⟨by decide, by decide, by decide,
   C1_amended 320 openedReader (by decide) (by decide) (by decide)⟩

/-- C2: `Close` contradicts its own documentation ("Close resets the
BitReader") when the source is an `io.ReadCloser`: the early return skips
every counter reset, so the reader keeps `offset`, `lazyPosition`,
`bitsInBuffer` and the chunk stack.  Consequently reopening after `Close`
on a fresh source holding the same bytes does not reproduce first-time
results: on the byte `0x01`, open–ReadBit–Close–reopen–ReadBit returns
`false` (the stale `offset = 1` survives the reopen) while a first-time
open returns `true`. -/
theorem C2_theorem :
    (∀ r : BitReader, r.src.closable = true → close r = r) ∧
    close closableReader = closableReader ∧
    ((mkOpen [1] 24 false true).bind (fun r =>
        (readBit r).bind (fun p =>
          (openSized { data := [1], rpos := 0, seekable := false, closable := true } 24
            (close p.2)).bind (fun r2 => (readBit r2).map Prod.fst))) = .ok false) ∧
    ((mkOpen [1] 24 false true).bind (fun r => (readBit r).map Prod.fst) = .ok true) := by
  refine ⟨?_, rfl, rfl, rfl⟩
  intro r h
  rw [close, if_pos h]

/-- C2 witness: the early return of `Close` at a concrete closable reader. -/
theorem C2_witness : close closableReader = closableReader :=
  C2_theorem.1 closableReader rfl

/-- C5 counterexample: the claim fails as stated at `n = 0`.  At the state
reached by `Open([0x01], 24); ReadBit()` (`bitReader01`, a well-formed
cursor at bit position 1), `ReadSignedInt 0` computes
`int64(val << (64 - 1 - 0)) >> 64`: the set stream bit just before the
position lands in the sign bit and the arithmetic shift by 64 sign-fills,
so the call returns `-1` — but the 0-bit value `ReadInt 0` returns,
reinterpreted as a 0-bit signed value (`toSigned 0`), is `0`. -/
theorem C5_counterexample :
    mkOpen [1] 24 false false = .ok { bitReader01 with offset := 0 } ∧
    readBit { bitReader01 with offset := 0 } = .ok (true, bitReader01) ∧
    WF bitReader01 ∧
    readSignedInt 0 bitReader01 = .ok (-1, bitReader01) ∧
    toSigned 0 (refReadInt bitReader01.src.data (actualPosition bitReader01) 0) = 0 ∧
    (-1 : Int) ≠ 0 :=
  ⟨rfl, rfl, by decide, rfl, rfl, by decide⟩

/-- C5 amended: `ReadSignedInt n` for `1 ≤ n ≤ 32` (at any well-formed
position with `n` bits of supply left) returns exactly the
two's-complement reinterpretation `toSigned n` of the same `n` stream bits
that `ReadInt n` returns unsigned (`refReadInt`), and the three concrete
32-bit cases of the claim evaluate as stated: `0x7FFFFFFF ↦ 2147483647`,
`0x80000000 ↦ -2147483648`, `0x00000000 ↦ 0`. -/
theorem C5_theorem (n : Nat) (r : BitReader) (hWF : WF r) (hn1 : 1 ≤ n) (hn : n ≤ 32)
    (hsup : actualPosition r + n ≤ 8 * r.src.data.length) :
    (∃ r', readSignedInt n r =
        .ok (toSigned n (refReadInt r.src.data (actualPosition r) n), r') ∧ WF r' ∧
        actualPosition r' = actualPosition r + n) ∧
    (∃ r'', readInt n r = .ok (refReadInt r.src.data (actualPosition r) n, r'')) ∧
    ((mkOpen [255, 255, 255, 127] 24 false false).bind
        (fun r0 => (readSignedInt 32 r0).map Prod.fst) = .ok 2147483647) ∧
    ((mkOpen [0, 0, 0, 128] 24 false false).bind
        (fun r0 => (readSignedInt 32 r0).map Prod.fst) = .ok (-2147483648)) ∧
    ((mkOpen [0, 0, 0, 0] 24 false false).bind
        (fun r0 => (readSignedInt 32 r0).map Prod.fst) = .ok 0) := by
  obtain ⟨r', heq, hWF', hp', _⟩ := readSignedInt_spec n r hWF hn1 hn hsup
  obtain ⟨r'', heq2, _, _, _⟩ := readInt_spec n r hWF hn hsup
  exact ⟨⟨r', heq, hWF', hp'⟩, ⟨r'', heq2⟩, rfl, rfl, rfl⟩

/-- C5 witness at `byteReader` (source byte `0xac`), `n = 8`:
`toSigned 8 (refReadInt [172] 0 8) = -84`. -/
theorem C5_witness :
    (∃ r', readSignedInt 8 byteReader =
        .ok (toSigned 8 (refReadInt byteReader.src.data (actualPosition byteReader) 8), r') ∧
        WF r' ∧ actualPosition r' = actualPosition byteReader + 8) ∧
    (∃ r'', readInt 8 byteReader =
        .ok (refReadInt byteReader.src.data (actualPosition byteReader) 8, r'')) ∧
    ((mkOpen [255, 255, 255, 127] 24 false false).bind
        (fun r0 => (readSignedInt 32 r0).map Prod.fst) = .ok 2147483647) ∧
    ((mkOpen [0, 0, 0, 128] 24 false false).bind
        (fun r0 => (readSignedInt 32 r0).map Prod.fst) = .ok (-2147483648)) ∧
    ((mkOpen [0, 0, 0, 0] 24 false false).bind
        (fun r0 => (readSignedInt 32 r0).map Prod.fst) = .ok 0) :=
  C5_theorem 8 byteReader (by decide) (by decide) (by decide) (by decide)

/-- C10: on an empty chunk stack `EndChunk` and `ChunkFinished` do not
return a value: both fail with the empty-stack (index-out-of-range) panic
of `stack.pop`/`stack.top` rather than acting as a no-op; and every
`EndChunk` that returns normally started from a nonempty stack, i.e. had a
matching not-yet-ended `BeginChunk`. -/
theorem C10_theorem :
    (∀ r : BitReader, r.chunkTargets = [] → endChunk r = .error .emptyStack) ∧
    (∀ r : BitReader, r.chunkTargets = [] → chunkFinished r = .error .emptyStack) ∧
    (∀ (r r' : BitReader), endChunk r = .ok r' → r.chunkTargets ≠ []) := by
  refine ⟨?_, ?_, ?_⟩
  · intro r h
    rw [endChunk, h]
    rfl
  · intro r h
    rw [chunkFinished, h]
    rfl
  · intro r r' h hnil
    rw [endChunk, hnil] at h
    cases h

/-- C10 witness: the empty-stack failures at `openedReader` (whose stack is
empty) and a normally returning `EndChunk` at `chunkReader` (stack `[16]`). -/
theorem C10_witness :
    endChunk openedReader = .error .emptyStack ∧
    chunkFinished openedReader = .error .emptyStack ∧
    chunkReader.chunkTargets ≠ [] :=
  ⟨C10_theorem.1 openedReader rfl, C10_theorem.2.1 openedReader rfl,
   C10_theorem.2.2 chunkReader { openedReader with offset := 16 } (by rfl)⟩

/-- C3: buffer size is not observable.  For every byte-valued source, every
operation sequence whose reference run succeeds, and any two buffer sizes
satisfying the configuration constraint (multiple of 8, greater than 16),
opening with either size and running the sequence returns the same values
and the same final position — regardless of the seek/close capabilities of
the two sources. -/
theorem C3_theorem (data : List Nat) (ops : List Op) (sz1 sz2 : Nat)
    (sk1 sk2 cl1 cl2 : Bool)
    (h81 : sz1 % 8 = 0) (h161 : 16 < sz1) (h82 : sz2 % 8 = 0) (h162 : 16 < sz2)
    (hd : ∀ b ∈ data, b < 256) (hne : 0 < data.length)
    (vs : List Val) (s' : RefSt) (href : refRun data ops ⟨0, []⟩ = some (vs, s')) :
    ∃ r1 r2 r1' r2', mkOpen data sz1 sk1 cl1 = .ok r1 ∧ mkOpen data sz2 sk2 cl2 = .ok r2 ∧
      runOps ops r1 = .ok (vs, r1') ∧ runOps ops r2 = .ok (vs, r2') ∧
      actualPosition r1' = actualPosition r2' := by
  obtain ⟨r1, ho1, hWF1, hp1, hc1, hdata1, _, _, _, _⟩ :=
    mkOpen_spec data sz1 sk1 cl1 h81 h161 hd hne
  obtain ⟨r2, ho2, hWF2, hp2, hc2, hdata2, _, _, _, _⟩ :=
    mkOpen_spec data sz2 sk2 cl2 h82 h162 hd hne
  have hsim1 : Sim data r1 ⟨0, []⟩ := ⟨hWF1, hdata1, by rw [hp1], by rw [hc1]⟩
  have hsim2 : Sim data r2 ⟨0, []⟩ := ⟨hWF2, hdata2, by rw [hp2], by rw [hc2]⟩
  obtain ⟨r1', hrun1, hsim1', _, _, _⟩ := runOps_ref data ops r1 ⟨0, []⟩ vs s' hsim1 href
  obtain ⟨r2', hrun2, hsim2', _, _, _⟩ := runOps_ref data ops r2 ⟨0, []⟩ vs s' hsim2 href
  exact ⟨r1, r2, r1', r2', ho1, ho2, hrun1, hrun2,
    by rw [hsim1'.2.2.1, hsim2'.2.2.1]⟩

/-- C3 witness: buffer sizes 24 and 32 on the same 8-byte source, a
seekable and a non-seekable one, return identical values. -/
theorem C3_witness :
    ∃ r1 r2 r1' r2', mkOpen (List.range 8) 24 true false = .ok r1 ∧
      mkOpen (List.range 8) 32 false false = .ok r2 ∧
      runOps [.readInt 8, .readBit] r1 = .ok ([.n 0, .b true], r1') ∧
      runOps [.readInt 8, .readBit] r2 = .ok ([.n 0, .b true], r2') ∧
      actualPosition r1' = actualPosition r2' :=
  C3_theorem (List.range 8) [.readInt 8, .readBit] 24 32 true false false false
    (by decide) (by decide) (by decide) (by decide) (by decide) (by decide)
    [.n 0, .b true] ⟨9, []⟩ (by decide)

/-- C8: no decode indexes outside the buffer.  In this embedding every
buffer access of the decode operations — the byte read of `ReadBit`, the
unconditional 8-byte little-endian word loads of `ReadInt` and
`ReadSignedInt` (`getByte`/`leWord`), the contiguous copy of
`ReadBytesInto` and the sled copy of `refillBuffer` — is bounds-checked
and yields `.error .outOfBounds` whenever the Go code would index outside
`buffer`.  Whenever the operations' preconditions hold (the reference run
succeeds: widths within limits, source not read past its end), the whole
run returns `.ok`, so no access was out of bounds. -/
theorem C8_theorem (ops : List Op) (r : BitReader) (vs : List Val) (s' : RefSt)
    (hWF : WF r)
    (href : refRun r.src.data ops ⟨actualPosition r, r.chunkTargets⟩ = some (vs, s')) :
    ∃ r', runOps ops r = .ok (vs, r') ∧ WF r' ∧
      runOps ops r ≠ .error .outOfBounds := by
  obtain ⟨r', hrun, hsim', _, _, _⟩ := runOps_ref r.src.data ops r
    ⟨actualPosition r, r.chunkTargets⟩ vs s' ⟨hWF, rfl, rfl, rfl⟩ href
  refine ⟨r', hrun, hsim'.1, ?_⟩
  rw [hrun]
  intro hx
  cases hx

/-- C8 witness: a word load at an unaligned position, a skip and a bit read
on `openedReader` all stay in bounds and succeed. -/
theorem C8_witness :
    ∃ r', runOps [.readInt 32, .skip 5, .readBit] openedReader =
        .ok ([.n 50462976, .u, .b false], r') ∧ WF r' ∧
      runOps [.readInt 32, .skip 5, .readBit] openedReader ≠ .error .outOfBounds :=
  C8_theorem [.readInt 32, .skip 5, .readBit] openedReader
    [.n 50462976, .u, .b false] ⟨38, []⟩ (by decide) (by decide)

/-- C9: the `UnexpectedEnd` behaviour.  (1) Once source exhaustion has been
observed during a refill (`endReached`), a further refill fails with
`UnexpectedEnd`; (2) hence any `advance` that would trigger another refill
(offset pushed past `bitsInBuffer`) aborts with `UnexpectedEnd`; (3) runs
whose reads stay within the bits the source supplies (the reference run
succeeds) never return `UnexpectedEnd`. -/
theorem C9_theorem :
    (∀ r : BitReader, WFn r → r.endReached = true →
      refillBuffer r = .error .unexpectedEnd) ∧
    (∀ (bits : Nat) (r : BitReader), WFn r → r.endReached = true →
      r.bitsInBuffer < r.offset + bits → advance bits r = .error .unexpectedEnd) ∧
    (∀ (ops : List Op) (r : BitReader) (vs : List Val) (s' : RefSt), WF r →
      refRun r.src.data ops ⟨actualPosition r, r.chunkTargets⟩ = some (vs, s') →
      runOps ops r ≠ .error .unexpectedEnd) := by
  refine ⟨fun r h1 h2 => refill_end r h1 h2, ?_, ?_⟩
  · intro bits r hWFn hend hlt
    rw [advance]
    have hWFn1 : WFn { r with offset := r.offset + bits } := hWFn
    have hend1 : ({ r with offset := r.offset + bits } : BitReader).endReached = true := hend
    have hlt1 : ({ r with offset := r.offset + bits } : BitReader).bitsInBuffer <
        ({ r with offset := r.offset + bits } : BitReader).offset := hlt
    exact advanceLoop_end (r.offset + bits + 2) _ hWFn1 hend1 hlt1 (by omega)
  · intro ops r vs s' hWF href
    obtain ⟨r', hrun, _, _, _, _⟩ := runOps_ref r.src.data ops r
      ⟨actualPosition r, r.chunkTargets⟩ vs s' ⟨hWF, rfl, rfl, rfl⟩ href
    rw [hrun]
    intro hx
    cases hx

/-- C9 witness: `exhaustedReader` has observed EOF; a refill and an
advance past its buffered bits abort with `UnexpectedEnd`, while a bit
read within supply on `byteReader` does not. -/
theorem C9_witness :
    refillBuffer exhaustedReader = .error .unexpectedEnd ∧
    advance 10 exhaustedReader = .error .unexpectedEnd ∧
    runOps [.readBit] byteReader ≠ .error .unexpectedEnd :=
  ⟨C9_theorem.1 exhaustedReader (by decide) rfl,
   C9_theorem.2.1 10 exhaustedReader (by decide) rfl (by decide),
   C9_theorem.2.2 [.readBit] byteReader [.b false] ⟨1, []⟩ (by decide) (by decide)⟩

/-- C6: the position invariant.  `ActualPosition()` is definitionally
`lazyPosition + offset`; it is 0 immediately after a first-time `Open`;
every successful read advances it by exactly the bit width it consumed
(hence it is monotonically non-decreasing across reads); and a buffer
refill leaves it unchanged — `lazyPosition` increases and `offset`
decreases by the same `bitsInBuffer` amount, so only `LazyPosition()`
jumps forward, never `ActualPosition()`. -/
theorem C6_theorem :
    (∀ r : BitReader, actualPosition r = r.lazyPosition + r.offset) ∧
    (∀ (data : List Nat) (sz : Nat) (sk cl : Bool) (r : BitReader),
      mkOpen data sz sk cl = .ok r → actualPosition r = 0) ∧
    (∀ (op : Op) (r : BitReader) (v : Val) (r' : BitReader), op.isRead = true →
      step op r = .ok (v, r') → actualPosition r' = actualPosition r + op.width) ∧
    (∀ (op : Op) (r : BitReader) (v : Val) (r' : BitReader), op.isRead = true →
      step op r = .ok (v, r') → actualPosition r ≤ actualPosition r') ∧
    (∀ r r' : BitReader, refillBuffer r = .ok r' → r.bitsInBuffer ≤ r.offset →
      actualPosition r' = actualPosition r ∧
      r'.lazyPosition = r.lazyPosition + r.bitsInBuffer ∧
      r'.offset = r.offset - r.bitsInBuffer ∧
      r.lazyPosition ≤ r'.lazyPosition) := by
  refine ⟨fun r => rfl, ?_,
    fun op r v r' h1 h2 => step_read_pos op r v r' h1 h2,
    fun op r v r' h1 h2 => by rw [step_read_pos op r v r' h1 h2]; omega, ?_⟩
  · intro data sz sk cl r h
    obtain ⟨ho, hl, _⟩ := mkOpen_zero h
    simp only [actualPosition, ho, hl]
  · intro r r' h hbo
    obtain ⟨ho, hl, _⟩ := refill_shape h
    refine ⟨?_, hl, ho, by omega⟩
    simp only [actualPosition, ho, hl]
    omega

/-- C6 witness: the position equation on `openedReader`, position 0 on a
fresh open, the exact 1-bit advance of a concrete `ReadBit`, and the
position-preserving refill of `drainedReader`. -/
theorem C6_witness :
    actualPosition openedReader = openedReader.lazyPosition + openedReader.offset ∧
    actualPosition byteReader = 0 ∧
    actualPosition { byteReader with offset := 1 } =
      actualPosition byteReader + Op.width .readBit ∧
    actualPosition byteReader ≤ actualPosition { byteReader with offset := 1 } ∧
    (actualPosition refilledReader = actualPosition drainedReader ∧
      refilledReader.lazyPosition =
        drainedReader.lazyPosition + drainedReader.bitsInBuffer ∧
      refilledReader.offset = drainedReader.offset - drainedReader.bitsInBuffer ∧
      drainedReader.lazyPosition ≤ refilledReader.lazyPosition) :=
  ⟨C6_theorem.1 openedReader,
   C6_theorem.2.1 [172] 24 false false byteReader rfl,
   C6_theorem.2.2.1 .readBit byteReader (.b false) { byteReader with offset := 1 }
     rfl (by rfl),
   C6_theorem.2.2.2.1 .readBit byteReader (.b false) { byteReader with offset := 1 }
     rfl (by rfl),
   C6_theorem.2.2.2.2 drainedReader refilledReader (by rfl) (by decide)⟩

/-- C7: `ReadBit` is least-significant-bit-first.  At any byte-aligned
well-formed position `8 * k` inside the source, the eight booleans
returned by eight consecutive `ReadBit` calls, weighted `b_i * 2 ^ i`,
sum to exactly the source byte at index `k`. -/
theorem C7_theorem (r : BitReader) (k : Nat) (hWF : WF r)
    (hal : actualPosition r = 8 * k) (hk : k < r.src.data.length) :
    ∃ (r' : BitReader) (bs : List Bool),
      runOps (List.replicate 8 .readBit) r = .ok (bs.map Val.b, r') ∧
      bs.length = 8 ∧
      ((List.range 8).map (fun i => (bs.getD i false).toNat * 2 ^ i)).sum =
        r.src.data.getD k 0 := by
  have hsup : actualPosition r + 8 ≤ 8 * r.src.data.length := by omega
  obtain ⟨r', heq, hWF', hp', hst⟩ := runReplicateReadBit 8 r hWF hsup
  refine ⟨r', (List.range 8).map (fun i => refReadBit r.src.data (actualPosition r + i)),
    ?_, ?_, ?_⟩
  · rw [heq, List.map_map]
    rfl
  · rw [List.length_map, List.length_range]
  · have hdlt := getD_lt_256 hWF.1.2.1.2 k
    have hb : r.src.data.getD k 0 < 2 ^ 8 := hdlt
    have hsum := sum_testBit 8 (r.src.data.getD k 0) hb
    rw [← hsum]
    refine congrArg List.sum (List.map_congr_left ?_)
    intro i hi
    rw [List.mem_range] at hi
    rw [map_range_getD _ 8 i hi, hal, refReadBit_getD]
    have h1 : (8 * k + i) / 8 = k := by omega
    have h2 : (8 * k + i) % 8 = i := by omega
    rw [h1, h2, Nat.mod_eq_of_lt hdlt]

/-- C7 witness: the eight bits of the byte `0xac = 172` on `byteReader`
reassemble to 172. -/
theorem C7_witness :
    ∃ (r' : BitReader) (bs : List Bool),
      runOps (List.replicate 8 .readBit) byteReader = .ok (bs.map Val.b, r') ∧
      bs.length = 8 ∧
      ((List.range 8).map (fun i => (bs.getD i false).toNat * 2 ^ i)).sum =
        byteReader.src.data.getD 0 0 :=
  C7_theorem byteReader 0 (by decide) (by decide) (by decide)

/-- C4: `EndChunk` fails with the ChunkOverrun panic exactly when the
popped target is below the current position (more bits consumed since the
matching `BeginChunk n` than `n`); a skip triggered by `EndChunk` never
produces ChunkOverrun and an overrun is never silently corrected.
Concretely (as the claim states): after `BeginChunk 16`, reading 1 bit and
then `EndChunk` succeeds landing exactly 16 bits past the chunk start,
while reading 17 bits first makes `EndChunk` fail with ChunkOverrun. -/
theorem C4_theorem (r : BitReader) (ts : List Nat) (t : Nat)
    (hts : r.chunkTargets = ts ++ [t]) :
    (endChunk r = .error .chunkOverrun ↔ t < actualPosition r) ∧
    (((mkOpen (List.range 30) 24 false false).bind
        (runOps [.beginChunk 16, .readBit, .endChunk])).map
        (fun p => actualPosition p.2) = .ok 16) ∧
    ((mkOpen (List.range 30) 24 false false).bind
        (runOps [.beginChunk 16, .readInt 17, .endChunk]) =
      .error .chunkOverrun) := by
  refine ⟨?_, rfl, rfl⟩
  rw [endChunk, hts, List.getLast?_concat]
  dsimp only
  rw [← hts]
  have hap : actualPosition { r with chunkTargets := r.chunkTargets.dropLast } =
      actualPosition r := rfl
  rcases Nat.lt_or_ge t (actualPosition r) with hlt | hge
  · have hneg : ((t : Int) - (actualPosition { r with chunkTargets :=
        r.chunkTargets.dropLast } : Int) < 0) := by
      rw [hap]
      omega
    rw [if_pos hneg]
    exact ⟨fun _ => hlt, fun _ => rfl⟩
  · have hnneg : ¬ ((t : Int) - (actualPosition { r with chunkTargets :=
        r.chunkTargets.dropLast } : Int) < 0) := by
      rw [hap]
      omega
    rw [if_neg hnneg]
    by_cases hdp : (0 : Int) < (t : Int) - (actualPosition { r with chunkTargets :=
        r.chunkTargets.dropLast } : Int)
    · rw [if_pos hdp]
      cases hs : skip ((t : Int) - (actualPosition { r with chunkTargets :=
          r.chunkTargets.dropLast } : Int)).toNat
          { r with chunkTargets := r.chunkTargets.dropLast } with
      | error e =>
        dsimp only
        constructor
        · intro h
          injection h with h
          exact absurd h (skip_err hs).1
        · intro h
          exact absurd h (by omega)
      | ok r2 =>
        dsimp only
        by_cases ht2 : t = actualPosition r2
        · rw [if_pos ht2]
          constructor
          · intro h
            cases h
          · intro h
            exact absurd h (by omega)
        · rw [if_neg ht2]
          constructor
          · intro h
            injection h with h
            cases h
          · intro h
            exact absurd h (by omega)
    · rw [if_neg hdp]
      dsimp only
      have hte : t = actualPosition { r with chunkTargets := r.chunkTargets.dropLast } := by
        rw [hap]
        omega
      rw [if_pos hte]
      constructor
      · intro h
        cases h
      · intro h
        exact absurd h (by omega)

/-- C4 witness: the overrun iff at `chunkReader` (open chunk with target
bit 16, position 0): false on both sides — no overrun, no panic. -/
theorem C4_witness :
    (endChunk chunkReader = .error .chunkOverrun ↔ 16 < actualPosition chunkReader) ∧
    (((mkOpen (List.range 30) 24 false false).bind
        (runOps [.beginChunk 16, .readBit, .endChunk])).map
        (fun p => actualPosition p.2) = .ok 16) ∧
    ((mkOpen (List.range 30) 24 false false).bind
        (runOps [.beginChunk 16, .readInt 17, .endChunk]) =
      .error .chunkOverrun) :=
  C4_theorem chunkReader [] 16 rfl

end Bitread
